import Mathlib

/-!
Verification of the sequential semantics of the smr-benchmark concurrent map
implementations (`src/ds_impl/circ_hp/list.rs`, `bonsai_tree.rs`,
`natarajan_mittal_tree.rs`, and `src/ds_impl/ebr/michael_hash_map.rs`).

The embedding is a shallow, single-threaded one: shared pointer structures
become inductive values, atomic loads read the current value, and every CAS
observes the state left by the previous step of the same thread (so a CAS
whose expected value was computed from the current state succeeds).  The
fallible structure of each CAS is kept in the return types (`Except`,
`Option`) so that the retry paths of the source remain visible.
-/

set_option linter.unusedSectionVars false

namespace SmrBench

/-! ## Harris / Harris-Michael / Harris-Herlihy-Shavit lists (`circ_hp/list.rs`)

A list node carries a key, a value and the tag bit of its outgoing `next`
pointer (`marked = true` means the tag is 1, i.e. the node is logically
deleted).  The physical list after the dummy head node is represented as a
`List` of such nodes, in link order; the dummy head's key and value are never
dereferenced by the source, and its `next` edge is never tagged, so it is left
implicit. -/

structure LNode (K V : Type) where
  key : K
  value : V
  marked : Bool
deriving Repr, DecidableEq

variable {K V : Type}

/-- Result of the traversal loop of `Cursor::find_harris`:
`kept` are the nodes the cursor moved past and left linked (every flushed
prev-chain included), `run` is the chain of logically deleted nodes between
`anchor` and `curr` (nonempty iff `anchor` was installed at loop exit),
`rest` is `curr` and everything after it, and `found` is the loop's result. -/
structure FindRes (K V : Type) where
  kept : List (LNode K V)
  run : List (LNode K V)
  rest : List (LNode K V)
  found : Bool
deriving Repr, DecidableEq

/-- The traversal loop of `Cursor::find_harris` (`list.rs:117-159`).
`kept`/`run` play the role of the `prev`/`anchor`/`anchor_next` snapshots:
the anchor is the last node of `kept` (or the head if `kept` is empty), and
`run` is the prev-chain of tagged nodes behind `curr`.  A tagged node joins
the chain; an untagged node with a smaller key is passed (clearing the anchor,
which flushes the chain back into the retained prefix); an untagged node with
an equal or greater key stops the loop, as does the end of the list. -/
def findHarrisLoop [LinearOrder K] (k : K) (kept run : List (LNode K V)) :
    List (LNode K V) → FindRes K V
  | [] => ⟨kept, run, [], false⟩
  | n :: tl =>
    if n.marked then
      findHarrisLoop k kept (run ++ [n]) tl
    else
      match compare n.key k with
      | .lt => findHarrisLoop k (kept ++ run ++ [n]) [] tl
      | .eq => ⟨kept, run, n :: tl, true⟩
      | .gt => ⟨kept, run, n :: tl, false⟩

/-- `Cursor::find_harris` (`list.rs:117-184`).  After the loop, if an anchor
was installed (`run ≠ []`), a single CAS on `anchor.next` is attempted, whose
expected pointer is `anchor_next` — or `prev` when `anchor_next` is null, and
in both cases that is the first node of the chain — and whose new value is the
untagged `curr`.  The CAS compares the current successor of the anchor with
the expected pointer; failure is the retry error `Except.error ()`.  Success
unlinks the whole chain: the list becomes `kept ++ rest`.
Returns (new list, found, index of `curr` in the new list). -/
def findHarris [LinearOrder K] [DecidableEq V] (k : K) (l : List (LNode K V)) :
    Except Unit (List (LNode K V) × Bool × Nat) :=
  let r := findHarrisLoop k [] [] l
  if r.run.isEmpty then
    .ok (r.kept ++ r.rest, r.found, r.kept.length)
  else
    -- current value of `anchor.next` in the (unchanged, single-threaded) list:
    if (r.run ++ r.rest).head? = r.run.head? then
      .ok (r.kept ++ r.rest, r.found, r.kept.length)
    else
      .error ()

/-- The traversal loop of `Cursor::find_harris_michael` (`list.rs:188-213`).
A tagged `curr` is unlinked at once by the `prev.next: curr → next` CAS (which
succeeds in the single-threaded state) and the traversal continues; untagged
nodes are compared.  Returns (new list, found, index of `curr`). -/
def findHarrisMichael [LinearOrder K] (k : K) (kept : List (LNode K V)) :
    List (LNode K V) → List (LNode K V) × Bool × Nat
  | [] => (kept, false, kept.length)
  | n :: tl =>
    if n.marked then
      findHarrisMichael k kept tl
    else
      match compare n.key k with
      | .lt => findHarrisMichael k (kept ++ [n]) tl
      | .eq => (kept ++ n :: tl, true, kept.length)
      | .gt => (kept ++ n :: tl, false, kept.length)

/-- `Cursor::find_harris_herlihy_shavit` (`list.rs:217-227`): read-only
traversal; advances past smaller keys ignoring tags; on an equal key stops
with `found = (tag(next) == 0)`.  The second component is the value exposed by
`Cursor::output()` (the found node's value) when `found` is true. -/
def findHHS [LinearOrder K] (k : K) : List (LNode K V) → Bool × Option V
  | [] => (false, none)
  | n :: tl =>
    match compare n.key k with
    | .lt => findHHS k tl
    | .eq => (!n.marked, if n.marked then none else some n.value)
    | .gt => (false, none)

section ListOps

variable [LinearOrder K] [DecidableEq V]

/-- `List::get` with `find = Cursor::find_harris` (`list.rs:304-314`,
`harris_get`): retry the find until it returns `Ok`.  In the single-threaded
state the first attempt succeeds, so the retry loop is the `Except.error`
fallback (proved unreachable in `findHarris_ok`).  Returns (new list, found,
value exposed by `Cursor::output()` when found). -/
def harrisGet (l : List (LNode K V)) (k : K) :
    List (LNode K V) × Bool × Option V :=
  match findHarris k l with
  | .ok (l2, found, i) =>
    (l2, found, if found then (l2.get? i).map (·.value) else none)
  | .error _ => (l, false, none)

/-- `List::insert` with `find_harris` (`list.rs:316-334` and
`Cursor::insert`, `list.rs:246-266`): find; if found, return false; else link
a fresh untagged node before `curr` by the `prev.next: curr → new` CAS (which
succeeds in the single-threaded state). -/
def harrisInsert (l : List (LNode K V)) (k : K) (v : V) :
    List (LNode K V) × Bool :=
  match findHarris k l with
  | .ok (l2, true, _) => (l2, false)
  | .ok (l2, false, i) => (l2.take i ++ ⟨k, v, false⟩ :: l2.drop i, true)
  | .error _ => (l, false)

/-- `List::remove` with `find_harris` (`list.rs:336-352` and
`Cursor::remove`, `list.rs:270-288`): find; if not found, return false; else
tag `curr.next` (logical delete) and physically unlink `curr` with the
`prev.next: curr → next` CAS; both succeed in the single-threaded state.
Returns (new list, found, value exposed by `Cursor::output()`). -/
def harrisRemove (l : List (LNode K V)) (k : K) :
    List (LNode K V) × Bool × Option V :=
  match findHarris k l with
  | .ok (l2, false, _) => (l2, false, none)
  | .ok (l2, true, i) =>
    (l2.take i ++ l2.drop (i + 1), true, (l2.get? i).map (·.value))
  | .error _ => (l, false, none)

/-- `harris_michael_get` (`list.rs:385-387`). -/
def hmGet (l : List (LNode K V)) (k : K) :
    List (LNode K V) × Bool × Option V :=
  match findHarrisMichael k [] l with
  | (l2, found, i) =>
    (l2, found, if found then (l2.get? i).map (·.value) else none)

/-- `harris_michael_insert` (`list.rs:390-398`). -/
def hmInsert (l : List (LNode K V)) (k : K) (v : V) :
    List (LNode K V) × Bool :=
  match findHarrisMichael k [] l with
  | (l2, true, _) => (l2, false)
  | (l2, false, i) => (l2.take i ++ ⟨k, v, false⟩ :: l2.drop i, true)

/-- `harris_michael_remove` (`list.rs:401-403`). -/
def hmRemove (l : List (LNode K V)) (k : K) :
    List (LNode K V) × Bool × Option V :=
  match findHarrisMichael k [] l with
  | (l2, false, _) => (l2, false, none)
  | (l2, true, i) =>
    (l2.take i ++ l2.drop (i + 1), true, (l2.get? i).map (·.value))

/-- `harris_herlihy_shavit_get` (`list.rs:406-408`): the read-only traversal;
the list is returned unchanged by construction. -/
def hhsGet (l : List (LNode K V)) (k : K) :
    List (LNode K V) × Bool × Option V :=
  (l, findHHS k l)

end ListOps

/-! ## Abstract model: sorted association lists

Observable content of every map is abstracted to a strictly-sorted list of
key/value pairs; each structure's operations are proved to refine these. -/

section AbstractMap

variable [LinearOrder K]

/-- Association-list lookup. -/
def aLookup [DecidableEq K] (k : K) : List (K × V) → Option V
  | [] => none
  | p :: tl => if p.1 = k then some p.2 else aLookup k tl

/-- Sorted insert that leaves the list unchanged when the key is present. -/
def aInsert (k : K) (v : V) : List (K × V) → List (K × V)
  | [] => [(k, v)]
  | p :: tl =>
    if k < p.1 then (k, v) :: p :: tl
    else if k = p.1 then p :: tl
    else p :: aInsert k v tl

/-- Remove a key from an association list. -/
def aRemove [DecidableEq K] (k : K) : List (K × V) → List (K × V)
  | [] => []
  | p :: tl => if p.1 = k then tl else p :: aRemove k tl

/-- Strictly ascending keys. -/
def ASorted : List (K × V) → Prop :=
  List.Pairwise (fun p q => p.1 < q.1)

end AbstractMap

/-! ## Natarajan-Mittal external BST (`circ_hp/natarajan_mittal_tree.rs`)

Sequential embedding: flag/tag bits never persist across completed operations
(the thread that flags an edge immediately completes its own cleanup and no
other thread runs), so reachable trees are clean and the internal nodes of
the inductive type carry untagged child edges. -/

/-- `Key<K>` (`natarajan_mittal_tree.rs:33-37`). -/
inductive NMKey (K : Type) where
  | fin (k : K)
  | inf
deriving Repr, DecidableEq

/-- `Key::partial_cmp` for `Key` against `Key`
(`natarajan_mittal_tree.rs:39-51`; always `Some`). -/
def nmKeyCmp [LinearOrder K] : NMKey K → NMKey K → Ordering
  | .fin a, .fin b => compare a b
  | .fin _, .inf => .lt
  | .inf, .fin _ => .gt
  | .inf, .inf => .eq

/-- `Key::cmp` against a finite key (`natarajan_mittal_tree.rs:77-87`):
a sentinel compares strictly greater than every finite key. -/
def nmKeyCmpK [LinearOrder K] : NMKey K → K → Ordering
  | .fin a, k => compare a k
  | .inf, _ => .gt

/-- A tree node (`natarajan_mittal_tree.rs:89-94`): leaves are terminal
(both child edges null), internal nodes have two children. -/
inductive NMTree (K V : Type) where
  | leaf (key : NMKey K) (value : Option V)
  | internal (key : NMKey K) (left right : NMTree K V)
deriving Repr, DecidableEq

namespace NMTree

variable [LinearOrder K]

/-- The key of the root node. -/
def rootKey : NMTree K V → NMKey K
  | leaf k _ => k
  | internal k _ _ => k

/-- The value of the root node (None for internal nodes). -/
def rootValue : NMTree K V → Option V
  | leaf _ v => v
  | internal _ _ _ => none

/-- The descent of `seek`/`seek_leaf`
(`natarajan_mittal_tree.rs:247-318`): at every node go left iff
`curr.key.cmp(key) == Greater`; stops at the leaf (`curr == null`). -/
def seekLeaf (k : K) : NMTree K V → NMTree K V
  | leaf kk v => leaf kk v
  | internal kk l r =>
    if nmKeyCmpK kk k = .gt then seekLeaf k l else seekLeaf k r

/-- The 5-node sentinel skeleton built by `NMTreeMap::new`
(`natarajan_mittal_tree.rs:228-244`). -/
def nmNew : NMTree K V :=
  internal .inf (internal .inf (leaf .inf none) (leaf .inf none))
    (leaf .inf none)

/-- `NMTreeMap::get` (`natarajan_mittal_tree.rs:381-386`): `seek_leaf`, then
the record's `found` snapshot is the reached leaf; returns whether its key
equals `key`, along with the value `SeekRecord::output()` exposes. -/
def nmGet (t : NMTree K V) (k : K) : Bool × Option V :=
  let lf := seekLeaf k t
  (nmKeyCmpK lf.rootKey k = .eq, lf.rootValue)

/-- `NMTreeMap::insert` (`natarajan_mittal_tree.rs:388-459`), sequential:
seek to the leaf; if its key equals `key` return `none` (false).  Otherwise
build the new internal node holding the old leaf and the new leaf in key
order — `Greater`: the new leaf on the left, node key = old leaf's key;
`Less`: the new leaf on the right, node key = the new key — and install it in
place of the leaf by the `parent.<leaf_dir>` edge CAS (single-threaded: the
first CAS succeeds). -/
def nmInsertAux (k : K) (v : V) : NMTree K V → Option (NMTree K V)
  | leaf kk vv =>
    match nmKeyCmpK kk k with
    | .eq => none
    | .gt => some (internal kk (leaf (.fin k) (some v)) (leaf kk vv))
    | .lt => some (internal (.fin k) (leaf kk vv) (leaf (.fin k) (some v)))
  | internal kk l r =>
    if nmKeyCmpK kk k = .gt then
      (nmInsertAux k v l).map (fun t => internal kk t r)
    else
      (nmInsertAux k v r).map (fun t => internal kk l t)

/-- `NMTreeMap::remove` (`natarajan_mittal_tree.rs:461-519`), sequential:
seek; if the reached leaf's key differs, return `none` (false).  Otherwise
flag the (parent, leaf) edge and run `cleanup`
(`natarajan_mittal_tree.rs:323-379`): tag the sibling edge, then CAS the
ancestor's successor edge from the parent to the sibling — with no
interference the successor snapshot is null and the CAS replaces the parent
node by the flagged leaf's sibling.  Returns the new tree and the removed
leaf's value (the record's `found` snapshot). -/
def nmRemoveAux (k : K) : NMTree K V → Option (NMTree K V × Option V)
  | leaf _ _ => none
  | internal kk l r =>
    if nmKeyCmpK kk k = .gt then
      match l with
      | leaf lk lv =>
        if nmKeyCmpK lk k = .eq then some (r, lv) else none
      | internal a b c =>
        (nmRemoveAux k (internal a b c)).map fun p => (internal kk p.1 r, p.2)
    else
      match r with
      | leaf rk rv =>
        if nmKeyCmpK rk k = .eq then some (l, rv) else none
      | internal a b c =>
        (nmRemoveAux k (internal a b c)).map fun p => (internal kk l p.1, p.2)

/-- Sequential `insert` at the map level: state and result. -/
def nmInsert (t : NMTree K V) (k : K) (v : V) : NMTree K V × Bool :=
  match nmInsertAux k v t with
  | none => (t, false)
  | some t2 => (t2, true)

/-- Sequential `remove` at the map level: state, result and output value. -/
def nmRemove (t : NMTree K V) (k : K) : NMTree K V × Bool × Option V :=
  match nmRemoveAux k t with
  | none => (t, false, none)
  | some (t2, v) => (t2, true, v)

end NMTree

/-! ## Bonsai weight-balanced tree (`circ_hp/bonsai_tree.rs`)

Sequential embedding: `check_root` always returns true (the root cannot move
between the snapshot and the check when no other thread runs) and no observed
node is retired, so `is_retired_spot` is always false and the retired-sentinel
early returns of the builders are dead paths; the remaining code is the pure
functional tree reconstruction below.  `size` is the stored subtree size
field. -/

/-- A Bonsai node (`bonsai_tree.rs:34-40`); `nil` is the null pointer. -/
inductive BT (K V : Type) where
  | nil
  | node (key : K) (value : V) (size : Nat) (left right : BT K V)
deriving Repr, DecidableEq

namespace BT

/-- `WEIGHT` (`bonsai_tree.rs:7`). -/
def WEIGHT : Nat := 2

/-- `Node::node_size` (`bonsai_tree.rs:90-100`): stored size, 0 for null. -/
def nodeSize : BT K V → Nat
  | nil => 0
  | node _ _ s _ _ => s

/-- `State::mk_node` (`bonsai_tree.rs:158-184`):
`size = left_size + right_size + 1`. -/
def mkNode (l r : BT K V) (k : K) (v : V) : BT K V :=
  node k v (nodeSize l + nodeSize r + 1) l r

/-- `Pointer::is_null` as used on child edges. -/
def isNil : BT K V → Bool
  | nil => true
  | node _ _ _ _ _ => false

/-- `State::single_left` (`bonsai_tree.rs:259-285`). -/
def singleLeft (l : BT K V) (rk : K) (rv : V) (rl rr : BT K V)
    (k : K) (v : V) : BT K V :=
  mkNode (mkNode l rl k v) rr rk rv

/-- `State::double_left` (`bonsai_tree.rs:288-331`); dereferences
`right_left`, which is `nil` only on a dead path (see `mkBalanced`). -/
def doubleLeft (l : BT K V) (rk : K) (rv : V) (rl rr : BT K V)
    (k : K) (v : V) : BT K V :=
  match rl with
  | nil => nil
  | node rlk rlv _ rll rlr =>
    mkNode (mkNode l rll k v) (mkNode rlr rr rk rv) rlk rlv

/-- `State::mk_balanced_left` (`bonsai_tree.rs:227-256`); dereferences
`right`, which is `nil` only on a dead path (see `mkBalanced`). -/
def mkBalancedLeft (l r : BT K V) (k : K) (v : V) : BT K V :=
  match r with
  | nil => nil
  | node rk rv _ rl rr =>
    if nodeSize rl < nodeSize rr then singleLeft l rk rv rl rr k v
    else doubleLeft l rk rv rl rr k v

/-- `State::single_right` (`bonsai_tree.rs:365-391`). -/
def singleRight (lk : K) (lv : V) (ll lr : BT K V) (r : BT K V)
    (k : K) (v : V) : BT K V :=
  mkNode ll (mkNode lr r k v) lk lv

/-- `State::double_right` (`bonsai_tree.rs:394-437`). -/
def doubleRight (lk : K) (lv : V) (ll lr : BT K V) (r : BT K V)
    (k : K) (v : V) : BT K V :=
  match lr with
  | nil => nil
  | node lrk lrv _ lrl lrr =>
    mkNode (mkNode ll lrl lk lv) (mkNode lrr r k v) lrk lrv

/-- `State::mk_balanced_right` (`bonsai_tree.rs:334-362`). -/
def mkBalancedRight (l r : BT K V) (k : K) (v : V) : BT K V :=
  match l with
  | nil => nil
  | node lk lv _ ll lr =>
    if nodeSize lr < nodeSize ll then singleRight lk lv ll lr r k v
    else doubleRight lk lv ll lr r k v

/-- `State::mk_balanced` (`bonsai_tree.rs:187-224`): rebalance left when
`r_size > 0 && ((l_size > 0 && r_size > WEIGHT * l_size) ||
(l_size == 0 && r_size > WEIGHT))`, the symmetric condition for right,
otherwise plain `mk_node`.  `cur` supplies the key and value; it is non-null
at every call site (the `nil` case is a dead path). -/
def mkBalanced (cur l r : BT K V) : BT K V :=
  match cur with
  | nil => nil
  | node k v _ _ _ =>
    let ls := nodeSize l
    let rs := nodeSize r
    if 0 < rs ∧ ((0 < ls ∧ WEIGHT * ls < rs) ∨ (ls = 0 ∧ WEIGHT < rs)) then
      mkBalancedLeft l r k v
    else if 0 < ls ∧ ((0 < rs ∧ WEIGHT * rs < ls) ∨ (rs = 0 ∧ WEIGHT < ls)) then
      mkBalancedRight l r k v
    else
      mkNode l r k v

variable [LinearOrder K]

/-- `State::do_insert` (`bonsai_tree.rs:440-479`). -/
def doInsert (k : K) (v : V) : BT K V → BT K V × Bool
  | nil => (mkNode nil nil k v, true)
  | node nk nv sz l r =>
    match compare nk k with
    | .eq => (node nk nv sz l r, false)
    | .lt =>
      let p := doInsert k v r
      (mkBalanced (node nk nv sz l r) l p.1, p.2)
    | .gt =>
      let p := doInsert k v l
      (mkBalanced (node nk nv sz l r) p.1 r, p.2)

/-- `State::pull_leftmost` (`bonsai_tree.rs:526-558`): returns the subtree
with its leftmost node removed, plus that node's key/value repackaged as a
fresh leaf (`mk_node(null, null, key, value)`).  The source dereferences
`node` unconditionally; the `nil` case is a dead path at every call site. -/
def pullLeftmost : BT K V → BT K V × BT K V
  | nil => (nil, nil)
  | node k v sz l r =>
    if !(isNil l) then
      let p := pullLeftmost l
      (mkBalanced (node k v sz l r) p.1 r, p.2)
    else
      (r, mkNode nil nil k v)

/-- `State::pull_rightmost` (`bonsai_tree.rs:560-592`). -/
def pullRightmost : BT K V → BT K V × BT K V
  | nil => (nil, nil)
  | node k v sz l r =>
    if !(isNil r) then
      let p := pullRightmost r
      (mkBalanced (node k v sz l r) l p.1, p.2)
    else
      (l, mkNode nil nil k v)

/-- `State::do_remove` (`bonsai_tree.rs:482-524`).  Returns the new subtree,
the `found` flag, and the value stored into `holder.found` on a match. -/
def doRemove (k : K) : BT K V → BT K V × Bool × Option V
  | nil => (nil, false, none)
  | node nk nv sz l r =>
    match compare nk k with
    | .eq =>
      if sz = 1 then (nil, true, some nv)
      else if !(isNil l) then
        let p := pullRightmost l
        (mkBalanced p.2 p.1 r, true, some nv)
      else
        let p := pullLeftmost r
        (mkBalanced p.2 l p.1, true, some nv)
    | .lt =>
      let p := doRemove k r
      (mkBalanced (node nk nv sz l r) l p.1, p.2.1, p.2.2)
    | .gt =>
      let p := doRemove k l
      (mkBalanced (node nk nv sz l r) p.1 r, p.2.1, p.2.2)

/-- `BonsaiTreeMap::get` (`bonsai_tree.rs:624-651`): pure descent from the
root snapshot; on an equal key `holder.found` is set to the node's value. -/
def bGet : BT K V → K → Bool × Option V
  | nil, _ => (false, none)
  | node nk nv _ l r, k =>
    match compare k nk with
    | .eq => (true, some nv)
    | .lt => bGet l k
    | .gt => bGet r k

/-- `BonsaiTreeMap::insert` (`bonsai_tree.rs:653-678`): run `do_insert` from
the root snapshot and commit with the root CAS (single-threaded: the first
attempt commits, whether or not the key was inserted). -/
def bInsert (t : BT K V) (k : K) (v : V) : BT K V × Bool :=
  doInsert k v t

/-- `BonsaiTreeMap::remove` (`bonsai_tree.rs:680-705`). -/
def bRemove (t : BT K V) (k : K) : BT K V × Bool × Option V :=
  doRemove k t

end BT

/-! ## Michael hash map (`ebr/michael_hash_map.rs`)

Buckets are Harris-Herlihy-Shavit lists; the map holds a fixed vector of
them.  The hash of a key is kept abstract: the operations below take the
already hashed index, so the statements quantify over every possible hash
value. -/

namespace MichaelHashMap

/-- `HashMap::with_capacity` (`michael_hash_map.rs:17-24`): `n` fresh empty
bucket lists. -/
def withCapacity (n : Nat) : List (List (LNode K V)) :=
  List.replicate n []

/-- The bucket position computed by `HashMap::get_bucket`
(`michael_hash_map.rs:26-29`): `index % buckets.len()`.  In Rust, `%` with a
zero divisor panics, modelled by `none`; otherwise the position is defined. -/
def getBucketIdx (nbuckets index : Nat) : Option Nat :=
  if nbuckets = 0 then none else some (index % nbuckets)

/-- `HashMap::get_bucket`: the unchecked access
`buckets.get_unchecked(index % buckets.len())` at the computed position. -/
def getBucket (buckets : List (List (LNode K V))) (index : Nat) :
    Option (List (LNode K V)) :=
  (getBucketIdx buckets.length index).bind fun i => buckets.get? i

variable [LinearOrder K] [DecidableEq V]

/-- `HashMap::get` (`michael_hash_map.rs:38-41`) with the key's hash as
`index`: select the bucket, then the bucket list's HHS get.  `none` models
the divide-by-zero fault of `get_bucket` on a 0-bucket map. -/
def hashGet (buckets : List (List (LNode K V))) (index : Nat) (k : K) :
    Option (Bool × Option V) :=
  (getBucket buckets index).map fun b => findHHS k b

/-- `HashMap::insert` (`michael_hash_map.rs:43-46`). -/
def hashInsert (buckets : List (List (LNode K V))) (index : Nat) (k : K)
    (v : V) : Option (List (LNode K V) × Bool) :=
  (getBucket buckets index).map fun b => harrisInsert b k v

/-- `HashMap::remove` (`michael_hash_map.rs:48-51`). -/
def hashRemove (buckets : List (List (LNode K V))) (index : Nat) (k : K) :
    Option (List (LNode K V) × Bool × Option V) :=
  (getBucket buckets index).map fun b => harrisRemove b k

/-- `ConcurrentMap::new` for the hash map (`michael_hash_map.rs:59-61`):
default bucket count 30000. -/
def hashNew : List (List (LNode K V)) := withCapacity 30000

end MichaelHashMap

/-! ## Sequential driver

A single thread runs a sequence of map operations against one structure,
starting from the freshly constructed (empty) one. -/

/-- One map-interface call (§6.1 of the spec). -/
inductive MapOp (K V : Type) where
  | get (k : K)
  | insert (k : K) (v : V)
  | remove (k : K)
deriving Repr, DecidableEq

section Driver

variable [LinearOrder K] [DecidableEq V]

/-- One sequential step of `HList` (get/insert/remove all via
`find_harris`). -/
def stepHL (l : List (LNode K V)) : MapOp K V → List (LNode K V)
  | .get k => (harrisGet l k).1
  | .insert k v => (harrisInsert l k v).1
  | .remove k => (harrisRemove l k).1

/-- One sequential step of `HMList` (all via `find_harris_michael`). -/
def stepHM (l : List (LNode K V)) : MapOp K V → List (LNode K V)
  | .get k => (hmGet l k).1
  | .insert k v => (hmInsert l k v).1
  | .remove k => (hmRemove l k).1

/-- One sequential step of `HHSList` (get via
`find_harris_herlihy_shavit`, insert/remove via `find_harris`,
`list.rs:497-520`). -/
def stepHHS (l : List (LNode K V)) : MapOp K V → List (LNode K V)
  | .get k => (hhsGet l k).1
  | .insert k v => (harrisInsert l k v).1
  | .remove k => (harrisRemove l k).1

/-- One sequential step of `NMTreeMap`. -/
def stepNM (t : NMTree K V) : MapOp K V → NMTree K V
  | .get _ => t
  | .insert k v => (NMTree.nmInsert t k v).1
  | .remove k => (NMTree.nmRemove t k).1

/-- One sequential step of `BonsaiTreeMap`. -/
def stepBT (t : BT K V) : MapOp K V → BT K V
  | .get _ => t
  | .insert k v => (BT.bInsert t k v).1
  | .remove k => (BT.bRemove t k).1

/-- The `HList` state after running `ops` from the new (empty) list. -/
def runHL (ops : List (MapOp K V)) : List (LNode K V) :=
  ops.foldl stepHL []

/-- The `HMList` state after running `ops` from the new (empty) list. -/
def runHM (ops : List (MapOp K V)) : List (LNode K V) :=
  ops.foldl stepHM []

/-- The `HHSList` state after running `ops` from the new (empty) list. -/
def runHHS (ops : List (MapOp K V)) : List (LNode K V) :=
  ops.foldl stepHHS []

/-- The `NMTreeMap` state after running `ops` from the sentinel skeleton. -/
def runNM (ops : List (MapOp K V)) : NMTree K V :=
  ops.foldl stepNM NMTree.nmNew

/-- The `BonsaiTreeMap` state after running `ops` from the null root. -/
def runBT (ops : List (MapOp K V)) : BT K V :=
  ops.foldl stepBT BT.nil

end Driver

/-! ## Lemmas: abstract sorted association lists -/

section AbstractLemmas

variable [LinearOrder K]

theorem aLookup_eq_none {k : K} {L : List (K × V)} :
    aLookup k L = none ↔ ∀ p ∈ L, p.1 ≠ k := by
  induction L with
  | nil => simp [aLookup]
  | cons p tl ih =>
    by_cases h : p.1 = k <;> simp [aLookup, h, ih]

theorem aLookup_append_left {k : K} {w : V} {A B : List (K × V)}
    (h : aLookup k A = some w) : aLookup k (A ++ B) = some w := by
  induction A with
  | nil => simp [aLookup] at h
  | cons p tl ih =>
    by_cases hp : p.1 = k <;> simp_all [aLookup]

theorem aLookup_append_right {k : K} {A B : List (K × V)}
    (h : ∀ p ∈ A, p.1 ≠ k) : aLookup k (A ++ B) = aLookup k B := by
  induction A with
  | nil => simp
  | cons p tl ih => simp_all [aLookup]

theorem aLookup_at {k : K} {w : V} {A B : List (K × V)}
    (h : ∀ p ∈ A, p.1 ≠ k) : aLookup k (A ++ (k, w) :: B) = some w := by
  rw [aLookup_append_right h]; simp [aLookup]

theorem aInsert_append_right {k : K} {v : V} {A B : List (K × V)}
    (h : ∀ p ∈ A, p.1 < k) : aInsert k v (A ++ B) = A ++ aInsert k v B := by
  induction A with
  | nil => simp
  | cons p tl ih =>
    have hp : p.1 < k := h p (by simp)
    have h1 : ¬ k < p.1 := not_lt_of_lt hp
    have h2 : ¬ k = p.1 := fun he => absurd hp (by simp [he])
    have := ih (fun q hq => h q (by simp [hq]))
    simp only [List.cons_append, aInsert, if_neg h1, if_neg h2]
    exact congrArg (p :: ·) this

theorem aInsert_at {k : K} {v : V} {A B : List (K × V)}
    (hA : ∀ p ∈ A, p.1 < k) (hB : ∀ p ∈ B, k < p.1) :
    aInsert k v (A ++ B) = A ++ (k, v) :: B := by
  rw [aInsert_append_right hA]
  cases B with
  | nil => rfl
  | cons q tl =>
    have : k < q.1 := hB q (by simp)
    simp [aInsert, this]

theorem aInsert_present {k : K} {v w : V} {A B : List (K × V)}
    (hA : ∀ p ∈ A, p.1 < k) :
    aInsert k v (A ++ (k, w) :: B) = A ++ (k, w) :: B := by
  rw [aInsert_append_right hA]; simp [aInsert]

theorem aRemove_append_right {k : K} {A B : List (K × V)}
    (h : ∀ p ∈ A, p.1 ≠ k) : aRemove k (A ++ B) = A ++ aRemove k B := by
  induction A with
  | nil => simp
  | cons p tl ih => simp_all [aRemove]

theorem aRemove_at {k : K} {w : V} {A B : List (K × V)}
    (h : ∀ p ∈ A, p.1 ≠ k) : aRemove k (A ++ (k, w) :: B) = A ++ B := by
  rw [aRemove_append_right h]; simp [aRemove]

theorem aRemove_absent {k : K} {L : List (K × V)}
    (h : aLookup k L = none) : aRemove k L = L := by
  induction L with
  | nil => rfl
  | cons p tl ih =>
    rw [aLookup_eq_none] at h
    have hp : p.1 ≠ k := h p (by simp)
    have htl : aLookup k tl = none := by
      rw [aLookup_eq_none]; exact fun q hq => h q (by simp [hq])
    simp [aRemove, hp, ih htl]

theorem aLookup_aInsert_self {k : K} {v : V} {L : List (K × V)}
    (h : aLookup k L = none) : aLookup k (aInsert k v L) = some v := by
  induction L with
  | nil => simp [aInsert, aLookup]
  | cons p tl ih =>
    rw [aLookup_eq_none] at h
    have hp : p.1 ≠ k := h p (by simp)
    have htl : aLookup k tl = none := by
      rw [aLookup_eq_none]; exact fun q hq => h q (by simp [hq])
    by_cases h1 : k < p.1
    · simp [aInsert, h1, aLookup, hp]
    · have h2 : ¬ k = p.1 := fun he => hp he.symm
      simp [aInsert, h1, h2, aLookup, hp, ih htl]

theorem aLookup_aInsert_other {k q : K} {v : V} {L : List (K × V)}
    (h : q ≠ k) : aLookup q (aInsert k v L) = aLookup q L := by
  have hkq : ¬ k = q := fun he => h he.symm
  induction L with
  | nil => simp [aInsert, aLookup, hkq]
  | cons p tl ih =>
    by_cases h1 : k < p.1
    · simp [aInsert, h1, aLookup, hkq]
    · by_cases h2 : k = p.1
      · simp [aInsert, h1, h2]
      · rw [aInsert, if_neg h1, if_neg h2]
        by_cases h3 : p.1 = q
        · simp [aLookup, h3]
        · simp [aLookup, h3, ih]

theorem aLookup_aRemove_self {k : K} {L : List (K × V)}
    (hs : ASorted L) : aLookup k (aRemove k L) = none := by
  induction L with
  | nil => rfl
  | cons p tl ih =>
    rw [ASorted, List.pairwise_cons] at hs
    by_cases hp : p.1 = k
    · subst hp
      rw [aRemove, if_pos rfl, aLookup_eq_none]
      exact fun q hq => ne_of_gt (hs.1 q hq)
    · simp [aRemove, hp, aLookup, ih hs.2]

theorem aLookup_aRemove_other {k q : K} {L : List (K × V)}
    (h : q ≠ k) : aLookup q (aRemove k L) = aLookup q L := by
  induction L with
  | nil => rfl
  | cons p tl ih =>
    by_cases hp : p.1 = k
    · have hq : ¬ p.1 = q := fun he => h (he.symm.trans hp)
      rw [aRemove, if_pos hp, aLookup, if_neg hq]
    · rw [aRemove, if_neg hp]
      by_cases hq : p.1 = q
      · rw [aLookup, if_pos hq, aLookup, if_pos hq]
      · rw [aLookup, if_neg hq, aLookup, if_neg hq, ih]

theorem mem_aInsert {k : K} {v : V} {q : K × V} :
    ∀ {L : List (K × V)}, q ∈ aInsert k v L → q ∈ L ∨ q = (k, v) := by
  intro L
  induction L with
  | nil => intro hq; simp only [aInsert] at hq; simp at hq; exact Or.inr hq
  | cons r tr ihr =>
    intro hq
    by_cases hr1 : k < r.1
    · simp only [aInsert, if_pos hr1] at hq
      rcases List.mem_cons.mp hq with h | h
      · exact Or.inr h
      · exact Or.inl h
    · by_cases hr2 : k = r.1
      · simp only [aInsert, if_neg hr1, if_pos hr2] at hq
        exact Or.inl hq
      · simp only [aInsert, if_neg hr1, if_neg hr2] at hq
        rcases List.mem_cons.mp hq with h | h
        · exact Or.inl (by simp [h])
        · rcases ihr h with h | h
          · exact Or.inl (by simp [h])
          · exact Or.inr h

theorem aInsert_sorted {k : K} {v : V} {L : List (K × V)}
    (hs : ASorted L) : ASorted (aInsert k v L) := by
  induction L with
  | nil => simp [aInsert, ASorted]
  | cons p tl ih =>
    rw [ASorted, List.pairwise_cons] at hs
    by_cases h1 : k < p.1
    · rw [aInsert, if_pos h1, ASorted, List.pairwise_cons]
      refine ⟨?_, List.pairwise_cons.mpr hs⟩
      intro q hq
      rcases List.mem_cons.mp hq with he | hm
      · simpa [he] using h1
      · exact h1.trans (hs.1 q hm)
    · by_cases h2 : k = p.1
      · rw [aInsert, if_neg h1, if_pos h2]
        exact List.pairwise_cons.mpr hs
      · rw [aInsert, if_neg h1, if_neg h2, ASorted, List.pairwise_cons]
        have hk : p.1 < k := lt_of_le_of_ne (le_of_not_lt h1)
          (fun he => h2 he.symm)
        refine ⟨?_, ih hs.2⟩
        intro q hq
        rcases mem_aInsert hq with hm | he
        · exact hs.1 q hm
        · simpa [he] using hk

theorem aRemove_sublist {k : K} :
    ∀ {L : List (K × V)}, List.Sublist (aRemove k L) L := by
  intro L
  induction L with
  | nil => simp [aRemove]
  | cons p tl ih =>
    by_cases hp : p.1 = k
    · simp only [aRemove, if_pos hp]
      exact (List.sublist_cons_self p tl)
    · simp only [aRemove, if_neg hp]
      exact ih.cons₂ p

theorem aRemove_sorted {k : K} {L : List (K × V)}
    (hs : ASorted L) : ASorted (aRemove k L) :=
  List.Pairwise.sublist aRemove_sublist hs

end AbstractLemmas

/-! ## Lemmas: the three list traversals -/

/-- No node of the list is logically deleted.  This holds of every state a
single thread can observe between its own complete operations: `remove` tags
a node only between its two CASes and unlinks it before returning. -/
def Clean (l : List (LNode K V)) : Prop := ∀ n ∈ l, n.marked = false

/-- Observable content of a list state. -/
def absL : List (LNode K V) → List (K × V) :=
  List.map fun n => (n.key, n.value)

/-- Invariant of sequentially reachable list states: clean and strictly
sorted by key. -/
def InvL [LinearOrder K] (l : List (LNode K V)) : Prop :=
  Clean l ∧ ASorted (absL l)

/-- The decision to keep walking: `curr.key < key`. -/
def pkLt [LinearOrder K] (k : K) : LNode K V → Bool :=
  fun n => decide (compare n.key k = Ordering.lt)

/-- Whether the node the traversal stops at carries the searched key. -/
def stopFound [LinearOrder K] (k : K) : List (LNode K V) → Bool
  | [] => false
  | n :: _ => decide (compare n.key k = Ordering.eq)

/-- Where `find_harris_herlihy_shavit` stops, and what it returns there. -/
def hhsStop [LinearOrder K] (k : K) : List (LNode K V) → Bool × Option V
  | [] => (false, none)
  | n :: _ =>
    match compare n.key k with
    | .lt => (false, none)
    | .eq => (!n.marked, if n.marked then none else some n.value)
    | .gt => (false, none)

section ListLemmas

variable [LinearOrder K]

theorem dropWhile_cons_false {p : LNode K V → Bool} :
    ∀ {l tl : List (LNode K V)} {n : LNode K V},
      l.dropWhile p = n :: tl → p n = false := by
  intro l
  induction l with
  | nil => intro tl n h; simp [List.dropWhile] at h
  | cons a l ih =>
    intro tl n h
    rw [List.dropWhile_cons] at h
    by_cases hp : p a = true
    · exact ih (by simpa [hp] using h)
    · have hF : p a = false := by simpa using hp
      rw [hF] at h
      simp at h
      rw [← h.1, hF]

theorem findHarrisLoop_decomp {k : K} :
    ∀ (l kept run : List (LNode K V)),
      (findHarrisLoop k kept run l).kept ++ (findHarrisLoop k kept run l).run
          ++ (findHarrisLoop k kept run l).rest = kept ++ run ++ l := by
  intro l
  induction l with
  | nil => intro kept run; simp [findHarrisLoop]
  | cons n tl ih =>
    intro kept run
    by_cases hm : n.marked
    · rw [findHarrisLoop, if_pos hm, ih]
      simp
    · rw [findHarrisLoop, if_neg hm]
      rcases hc : compare n.key k with _ | _ | _
      · rw [ih]; simp
      · simp
      · simp

theorem findHarrisLoop_run_marked {k : K} :
    ∀ (l kept run : List (LNode K V)), (∀ n ∈ run, n.marked = true) →
      ∀ n ∈ (findHarrisLoop k kept run l).run, n.marked = true := by
  intro l
  induction l with
  | nil => intro kept run h; simpa [findHarrisLoop] using h
  | cons n tl ih =>
    intro kept run h
    by_cases hm : n.marked
    · rw [findHarrisLoop, if_pos hm]
      refine ih _ _ (fun m hmem => ?_)
      rcases List.mem_append.mp hmem with h1 | h2
      · exact h m h1
      · simp at h2; rw [h2]; exact hm
    · rw [findHarrisLoop, if_neg hm]
      rcases hc : compare n.key k with _ | _ | _
      · exact ih _ _ (by simp)
      · simpa using h
      · simpa using h

theorem findHarrisLoop_clean {k : K} :
    ∀ {l : List (LNode K V)} (kept : List (LNode K V)), Clean l →
      findHarrisLoop k kept [] l =
        ⟨kept ++ l.takeWhile (pkLt k), [], l.dropWhile (pkLt k),
          stopFound k (l.dropWhile (pkLt k))⟩ := by
  intro l
  induction l with
  | nil => intro kept _; simp [findHarrisLoop, stopFound]
  | cons n tl ih =>
    intro kept hcl
    have hm : n.marked = false := hcl n (by simp)
    have htl : Clean tl := fun m hmem => hcl m (by simp [hmem])
    rw [findHarrisLoop, if_neg (by simp [hm])]
    rcases hc : compare n.key k with _ | _ | _
    · have hpk : pkLt k n = true := by simp [pkLt, hc]
      rw [List.takeWhile_cons, List.dropWhile_cons]
      simp only [hpk, if_pos rfl]
      rw [show kept ++ [] ++ [n] = kept ++ [n] by simp, ih (kept ++ [n]) htl]
      simp
    · have hpk : pkLt k n = false := by simp [pkLt, hc]
      rw [List.takeWhile_cons, List.dropWhile_cons]
      simp only [hpk]
      simp [stopFound, hc]
    · have hpk : pkLt k n = false := by simp [pkLt, hc]
      rw [List.takeWhile_cons, List.dropWhile_cons]
      simp only [hpk]
      simp [stopFound, hc]

variable [DecidableEq V]

theorem findHarris_clean {k : K} {l : List (LNode K V)} (hcl : Clean l) :
    findHarris k l =
      .ok (l, stopFound k (l.dropWhile (pkLt k)),
        (l.takeWhile (pkLt k)).length) := by
  rw [findHarris]
  simp only [findHarrisLoop_clean [] hcl]
  simp [List.takeWhile_append_dropWhile]

/-- The anchor CAS of `find_harris` never fails in the single-threaded
state: the current successor of the anchor is exactly the expected first node
of the chain, so `find` always returns `Ok`. -/
theorem findHarris_ok {k : K} {l : List (LNode K V)} :
    findHarris k l =
      .ok ((findHarrisLoop k [] [] l).kept ++ (findHarrisLoop k [] [] l).rest,
        (findHarrisLoop k [] [] l).found,
        (findHarrisLoop k [] [] l).kept.length) := by
  rw [findHarris]
  rcases hrun : (findHarrisLoop k [] [] l).run with _ | ⟨a, run'⟩
  · simp [hrun]
  · simp [hrun]

theorem findHarrisMichael_clean {k : K} :
    ∀ {l : List (LNode K V)} (kept : List (LNode K V)), Clean l →
      findHarrisMichael k kept l =
        (kept ++ l, stopFound k (l.dropWhile (pkLt k)),
          kept.length + (l.takeWhile (pkLt k)).length) := by
  intro l
  induction l with
  | nil => intro kept _; simp [findHarrisMichael, stopFound]
  | cons n tl ih =>
    intro kept hcl
    have hm : n.marked = false := hcl n (by simp)
    have htl : Clean tl := fun m hmem => hcl m (by simp [hmem])
    rw [findHarrisMichael, if_neg (by simp [hm])]
    rcases hc : compare n.key k with _ | _ | _
    · have hpk : pkLt k n = true := by simp [pkLt, hc]
      rw [List.takeWhile_cons, List.dropWhile_cons]
      simp only [hpk, if_pos rfl]
      rw [ih (kept ++ [n]) htl]
      simp [Nat.add_assoc, Nat.add_comm 1]
    · have hpk : pkLt k n = false := by simp [pkLt, hc]
      rw [List.takeWhile_cons, List.dropWhile_cons]
      simp only [hpk]
      simp [stopFound, hc]
    · have hpk : pkLt k n = false := by simp [pkLt, hc]
      rw [List.takeWhile_cons, List.dropWhile_cons]
      simp only [hpk]
      simp [stopFound, hc]

theorem findHHS_dropWhile {k : K} :
    ∀ {l : List (LNode K V)}, findHHS k l = hhsStop k (l.dropWhile (pkLt k)) := by
  intro l
  induction l with
  | nil => simp [findHHS, hhsStop]
  | cons n tl ih =>
    rcases hc : compare n.key k with _ | _ | _
    · have hpk : pkLt k n = true := by simp [pkLt, hc]
      rw [findHHS, List.dropWhile_cons]
      simp only [hpk, if_pos rfl, hc, ih]
      simp
    · have hpk : pkLt k n = false := by simp [pkLt, hc]
      rw [findHHS, List.dropWhile_cons]
      simp only [hpk, hc]
      simp [hhsStop, hc]
    · have hpk : pkLt k n = false := by simp [pkLt, hc]
      rw [findHHS, List.dropWhile_cons]
      simp only [hpk, hc]
      simp [hhsStop, hc]

end ListLemmas

/-! ## Lemmas: lookup correspondence on clean sorted lists -/

section SortedLemmas

variable [LinearOrder K]

theorem takeWhile_keys_lt {k : K} {l : List (LNode K V)} :
    ∀ p ∈ absL (l.takeWhile (pkLt k)), p.1 < k := by
  intro p hp
  rcases List.mem_map.mp hp with ⟨n, hn, he⟩
  have := List.mem_takeWhile_imp hn
  rw [pkLt, decide_eq_true_iff] at this
  rw [← he]
  exact compare_lt_iff_lt.mp this

theorem absL_append (A B : List (LNode K V)) :
    absL (A ++ B) = absL A ++ absL B := List.map_append _ _ _

theorem absL_decomp {k : K} (l : List (LNode K V)) :
    absL l = absL (l.takeWhile (pkLt k)) ++ absL (l.dropWhile (pkLt k)) := by
  rw [← absL_append, List.takeWhile_append_dropWhile]

/-- The traversal's stopping condition agrees with abstract membership. -/
theorem stopFound_lookup {k : K} {l : List (LNode K V)} (h : InvL l) :
    stopFound k (l.dropWhile (pkLt k)) = (aLookup k (absL l)).isSome := by
  have hA : ∀ p ∈ absL (l.takeWhile (pkLt k)), p.1 ≠ k :=
    fun p hp => ne_of_lt (takeWhile_keys_lt p hp)
  rcases hd : l.dropWhile (pkLt k) with _ | ⟨n, tl⟩
  · rw [stopFound]
    have : absL l = absL (l.takeWhile (pkLt k)) := by
      rw [absL_decomp (k := k), hd]; simp [absL]
    rw [this, show (absL (l.takeWhile (pkLt k)) : List (K × V)) =
      absL (l.takeWhile (pkLt k)) ++ [] by simp, aLookup_append_right hA]
    simp [aLookup]
  · have hsplit : absL l =
        absL (l.takeWhile (pkLt k)) ++ (n.key, n.value) :: absL tl := by
      rw [absL_decomp (k := k), hd]; simp [absL]
    rcases hc : compare n.key k with _ | _ | _
    · exact absurd (dropWhile_cons_false hd) (by simp [pkLt, hc])
    · have hk : n.key = k := compare_eq_iff_eq.mp hc
      rw [stopFound, hc]
      rw [hsplit, ← hk, aLookup_at (by simpa [hk] using hA)]
      simp
    · have hk : k < n.key := compare_gt_iff_gt.mp hc
      rw [stopFound, hc]
      have hnone : aLookup k (absL l) = none := by
        rw [hsplit, aLookup_append_right hA, aLookup_eq_none]
        intro p hp
        rcases List.mem_cons.mp hp with he | hm
        · rw [he]; exact ne_of_gt hk
        · have hs := h.2
          rw [hsplit] at hs
          have := (List.pairwise_append.mp hs).2.1
          rw [List.pairwise_cons] at this
          exact ne_of_gt (hk.trans (this.1 p hm))
      simp [hnone]

/-- The node the traversal stops at carries the present binding. -/
theorem stop_eq_lookup {k : K} {l : List (LNode K V)} {n : LNode K V}
    {tl : List (LNode K V)} (h : InvL l) (hd : l.dropWhile (pkLt k) = n :: tl)
    (hc : compare n.key k = Ordering.eq) :
    aLookup k (absL l) = some n.value := by
  have hA : ∀ p ∈ absL (l.takeWhile (pkLt k)), p.1 ≠ k :=
    fun p hp => ne_of_lt (takeWhile_keys_lt p hp)
  have hk : n.key = k := compare_eq_iff_eq.mp hc
  have hsplit : absL l =
      absL (l.takeWhile (pkLt k)) ++ (n.key, n.value) :: absL tl := by
    rw [absL_decomp (k := k), hd]; simp [absL]
  rw [hsplit, ← hk, aLookup_at (by simpa [hk] using hA)]

/-- With the key absent, everything at or past the stopping point is
strictly larger. -/
theorem dropWhile_keys_gt {k : K} {l : List (LNode K V)} (h : InvL l)
    (habs : aLookup k (absL l) = none) :
    ∀ n ∈ l.dropWhile (pkLt k), k < n.key := by
  intro n hn
  rcases hd : l.dropWhile (pkLt k) with _ | ⟨m, tl⟩
  · rw [hd] at hn; simp at hn
  · have hsplit : absL l =
        absL (l.takeWhile (pkLt k)) ++ (m.key, m.value) :: absL tl := by
      rw [absL_decomp (k := k), hd]; simp [absL]
    have hmk : k < m.key := by
      rcases hc : compare m.key k with _ | _ | _
      · exact absurd (dropWhile_cons_false hd) (by simp [pkLt, hc])
      · exfalso
        have := stop_eq_lookup h hd hc
        rw [habs] at this; exact Option.noConfusion this
      · exact compare_gt_iff_gt.mp hc
    rw [hd] at hn
    rcases List.mem_cons.mp hn with he | hm
    · rw [he]; exact hmk
    · have hs := h.2
      rw [hsplit] at hs
      have hp := (List.pairwise_append.mp hs).2.1
      rw [List.pairwise_cons] at hp
      have : m.key < n.key := by
        have := hp.1 (n.key, n.value) (List.mem_map.mpr ⟨n, hm, rfl⟩)
        simpa using this
      exact hmk.trans this

theorem get_at_split {i : Nat} {l A B : List (LNode K V)} {n : LNode K V}
    (hl : l = A ++ n :: B) (hi : i = A.length) : l.get? i = some n := by
  subst hl hi
  rw [List.get?_append_right (Nat.le_refl _)]
  simp

end SortedLemmas

/-! ## Lemmas: list operation refinement -/

/-- The list state after a successful insert: the new untagged node sits
between the strictly-smaller prefix and the rest. -/
def insAt [LinearOrder K] (l : List (LNode K V)) (k : K) (v : V) :
    List (LNode K V) :=
  l.takeWhile (pkLt k) ++ ⟨k, v, false⟩ :: l.dropWhile (pkLt k)

/-- The list state after a successful remove: the stopping node is gone. -/
def remAt [LinearOrder K] (l : List (LNode K V)) (k : K) : List (LNode K V) :=
  l.takeWhile (pkLt k) ++ (l.dropWhile (pkLt k)).tail

section ListOpSpec

variable [LinearOrder K] [DecidableEq V]

theorem take_eq_takeWhile {k : K} (l : List (LNode K V)) :
    l.take (l.takeWhile (pkLt k)).length = l.takeWhile (pkLt k) := by
  have h := List.take_left (l.takeWhile (pkLt k)) (l.dropWhile (pkLt k))
  rwa [List.takeWhile_append_dropWhile] at h

theorem drop_eq_dropWhile {k : K} (l : List (LNode K V)) :
    l.drop (l.takeWhile (pkLt k)).length = l.dropWhile (pkLt k) := by
  have h := List.drop_left (l.takeWhile (pkLt k)) (l.dropWhile (pkLt k))
  rwa [List.takeWhile_append_dropWhile] at h

theorem harrisGet_spec {k : K} {l : List (LNode K V)} (h : InvL l) :
    harrisGet l k = (l, (aLookup k (absL l)).isSome, aLookup k (absL l)) := by
  have hsf := stopFound_lookup (k := k) h
  rcases hLook : aLookup k (absL l) with _ | w
  · rw [hLook] at hsf
    simp only [Option.isSome_none] at hsf
    rw [harrisGet, findHarris_clean h.1]
    simp [hsf, hLook]
  · rw [hLook] at hsf
    simp only [Option.isSome_some] at hsf
    rcases hd : l.dropWhile (pkLt k) with _ | ⟨n, tl⟩
    · rw [hd, stopFound] at hsf; exact absurd hsf (by simp)
    · rw [hd, stopFound] at hsf
      have hc : compare n.key k = Ordering.eq := by simpa using hsf
      have hval := stop_eq_lookup h hd hc
      rw [hLook] at hval
      have hw : n.value = w := by
        have := hval.symm
        injection this
      have hget : l.get? (l.takeWhile (pkLt k)).length = some n :=
        get_at_split (by rw [← hd, List.takeWhile_append_dropWhile]) rfl
      rw [harrisGet, findHarris_clean h.1]
      simp [hd, stopFound, hc, hget, hw, hLook]
      exact ⟨n, by simpa using hget, hw⟩

theorem harrisInsert_present {k : K} {w : V} {l : List (LNode K V)} {v : V}
    (h : InvL l) (hLook : aLookup k (absL l) = some w) :
    harrisInsert l k v = (l, false) := by
  have hsf := stopFound_lookup (k := k) h
  rw [hLook] at hsf
  simp only [Option.isSome_some] at hsf
  rw [harrisInsert, findHarris_clean h.1]
  simp [hsf]

theorem harrisInsert_absent {k : K} {l : List (LNode K V)} {v : V}
    (h : InvL l) (habs : aLookup k (absL l) = none) :
    harrisInsert l k v = (insAt l k v, true) := by
  have hsf := stopFound_lookup (k := k) h
  rw [habs] at hsf
  simp only [Option.isSome_none] at hsf
  rw [harrisInsert, findHarris_clean h.1]
  simp only [hsf]
  rw [take_eq_takeWhile, drop_eq_dropWhile, insAt]

theorem harrisRemove_absent {k : K} {l : List (LNode K V)}
    (h : InvL l) (habs : aLookup k (absL l) = none) :
    harrisRemove l k = (l, false, none) := by
  have hsf := stopFound_lookup (k := k) h
  rw [habs] at hsf
  simp only [Option.isSome_none] at hsf
  rw [harrisRemove, findHarris_clean h.1]
  simp [hsf]

theorem harrisRemove_present {k : K} {w : V} {l : List (LNode K V)}
    (h : InvL l) (hLook : aLookup k (absL l) = some w) :
    harrisRemove l k = (remAt l k, true, some w) := by
  have hsf := stopFound_lookup (k := k) h
  rw [hLook] at hsf
  simp only [Option.isSome_some] at hsf
  rcases hd : l.dropWhile (pkLt k) with _ | ⟨n, tl⟩
  · rw [hd, stopFound] at hsf; exact absurd hsf (by simp)
  · rw [hd, stopFound] at hsf
    have hc : compare n.key k = Ordering.eq := by simpa using hsf
    have hval := stop_eq_lookup h hd hc
    rw [hLook] at hval
    have hw : n.value = w := by
      have := hval.symm
      injection this
    have hl : l = l.takeWhile (pkLt k) ++ n :: tl := by
      rw [← hd, List.takeWhile_append_dropWhile]
    have hget : l.get? (l.takeWhile (pkLt k)).length = some n :=
      get_at_split hl rfl
    have hdrop : l.drop ((l.takeWhile (pkLt k)).length + 1) = tl := by
      have h2 : ((l.takeWhile (pkLt k)) ++ [n]) ++ tl = l := by
        rw [List.append_assoc]
        simpa using hl.symm
      have h3 := @List.drop_left' _ (l.takeWhile (pkLt k) ++ [n]) tl
        ((l.takeWhile (pkLt k)).length + 1) (by simp)
      rw [h2] at h3
      exact h3
    rw [harrisRemove, findHarris_clean h.1]
    simp only [hd, stopFound, hc]
    simp [take_eq_takeWhile (k := k) l, hdrop, hget, hw, remAt, hd]
    exact ⟨n, by simpa using hget, hw⟩

theorem absL_insAt {k : K} {v : V} {l : List (LNode K V)}
    (h : InvL l) (habs : aLookup k (absL l) = none) :
    absL (insAt l k v) = aInsert k v (absL l) := by
  have hB : ∀ p ∈ absL (l.dropWhile (pkLt k)), k < p.1 := by
    intro p hp
    rcases List.mem_map.mp hp with ⟨n, hn, he⟩
    rw [← he]
    exact dropWhile_keys_gt h habs n hn
  rw [insAt, absL_append, absL_decomp (k := k) l,
    aInsert_at takeWhile_keys_lt hB]
  simp [absL]

theorem invL_insAt {k : K} {v : V} {l : List (LNode K V)}
    (h : InvL l) (habs : aLookup k (absL l) = none) :
    InvL (insAt l k v) := by
  constructor
  · intro n hn
    rw [insAt] at hn
    rcases List.mem_append.mp hn with h1 | h2
    · have hmem : n ∈ l.takeWhile (pkLt k) ++ l.dropWhile (pkLt k) :=
        List.mem_append.mpr (Or.inl h1)
      rw [List.takeWhile_append_dropWhile] at hmem
      exact h.1 n hmem
    · rcases List.mem_cons.mp h2 with he | hm
      · rw [he]
      · have hmem : n ∈ l.takeWhile (pkLt k) ++ l.dropWhile (pkLt k) :=
          List.mem_append.mpr (Or.inr hm)
        rw [List.takeWhile_append_dropWhile] at hmem
        exact h.1 n hmem
  · rw [absL_insAt h habs]
    exact aInsert_sorted h.2

theorem absL_remAt {k : K} {w : V} {l : List (LNode K V)}
    (h : InvL l) (hLook : aLookup k (absL l) = some w) :
    absL (remAt l k) = aRemove k (absL l) := by
  have hsf := stopFound_lookup (k := k) h
  rw [hLook] at hsf
  simp only [Option.isSome_some] at hsf
  rcases hd : l.dropWhile (pkLt k) with _ | ⟨n, tl⟩
  · rw [hd, stopFound] at hsf; exact absurd hsf (by simp)
  · rw [hd, stopFound] at hsf
    have hc : compare n.key k = Ordering.eq := by simpa using hsf
    have hk : n.key = k := compare_eq_iff_eq.mp hc
    have hA : ∀ p ∈ absL (l.takeWhile (pkLt k)), p.1 ≠ k :=
      fun p hp => ne_of_lt (takeWhile_keys_lt p hp)
    rw [remAt, hd, absL_append, absL_decomp (k := k) l, hd]
    show absL (l.takeWhile (pkLt k)) ++ absL tl
      = aRemove k (absL (l.takeWhile (pkLt k)) ++ absL (n :: tl))
    have : absL (n :: tl) = (k, n.value) :: absL tl := by simp [absL, hk]
    rw [this, aRemove_at hA]

theorem invL_remAt {k : K} {w : V} {l : List (LNode K V)}
    (h : InvL l) (hLook : aLookup k (absL l) = some w) :
    InvL (remAt l k) := by
  constructor
  · intro n hn
    rw [remAt] at hn
    rcases List.mem_append.mp hn with h1 | h2
    · have hmem : n ∈ l.takeWhile (pkLt k) ++ l.dropWhile (pkLt k) :=
        List.mem_append.mpr (Or.inl h1)
      rw [List.takeWhile_append_dropWhile] at hmem
      exact h.1 n hmem
    · have hmem : n ∈ l.takeWhile (pkLt k) ++ l.dropWhile (pkLt k) :=
        List.mem_append.mpr (Or.inr (List.mem_of_mem_tail h2))
      rw [List.takeWhile_append_dropWhile] at hmem
      exact h.1 n hmem
  · rw [absL_remAt h hLook]
    exact aRemove_sorted h.2

theorem hmGet_spec {k : K} {l : List (LNode K V)} (h : InvL l) :
    hmGet l k = (l, (aLookup k (absL l)).isSome, aLookup k (absL l)) := by
  have hsf := stopFound_lookup (k := k) h
  rcases hLook : aLookup k (absL l) with _ | w
  · rw [hLook] at hsf
    simp only [Option.isSome_none] at hsf
    rw [hmGet, findHarrisMichael_clean [] h.1]
    simp [hsf, hLook]
  · rw [hLook] at hsf
    simp only [Option.isSome_some] at hsf
    rcases hd : l.dropWhile (pkLt k) with _ | ⟨n, tl⟩
    · rw [hd, stopFound] at hsf; exact absurd hsf (by simp)
    · rw [hd, stopFound] at hsf
      have hc : compare n.key k = Ordering.eq := by simpa using hsf
      have hval := stop_eq_lookup h hd hc
      rw [hLook] at hval
      have hw : n.value = w := by
        have := hval.symm
        injection this
      have hget : l.get? (l.takeWhile (pkLt k)).length = some n :=
        get_at_split (by rw [← hd, List.takeWhile_append_dropWhile]) rfl
      rw [hmGet, findHarrisMichael_clean [] h.1]
      simp [hd, stopFound, hc, hget, hw, hLook]
      exact ⟨n, by simpa using hget, hw⟩

theorem hmInsert_present {k : K} {w : V} {l : List (LNode K V)} {v : V}
    (h : InvL l) (hLook : aLookup k (absL l) = some w) :
    hmInsert l k v = (l, false) := by
  have hsf := stopFound_lookup (k := k) h
  rw [hLook] at hsf
  simp only [Option.isSome_some] at hsf
  rw [hmInsert, findHarrisMichael_clean [] h.1]
  simp [hsf]

theorem hmInsert_absent {k : K} {l : List (LNode K V)} {v : V}
    (h : InvL l) (habs : aLookup k (absL l) = none) :
    hmInsert l k v = (insAt l k v, true) := by
  have hsf := stopFound_lookup (k := k) h
  rw [habs] at hsf
  simp only [Option.isSome_none] at hsf
  rw [hmInsert, findHarrisMichael_clean [] h.1]
  simp only [hsf, List.nil_append, List.length_nil, Nat.zero_add]
  rw [take_eq_takeWhile, drop_eq_dropWhile, insAt]

theorem hmRemove_absent {k : K} {l : List (LNode K V)}
    (h : InvL l) (habs : aLookup k (absL l) = none) :
    hmRemove l k = (l, false, none) := by
  have hsf := stopFound_lookup (k := k) h
  rw [habs] at hsf
  simp only [Option.isSome_none] at hsf
  rw [hmRemove, findHarrisMichael_clean [] h.1]
  simp [hsf]

theorem hmRemove_present {k : K} {w : V} {l : List (LNode K V)}
    (h : InvL l) (hLook : aLookup k (absL l) = some w) :
    hmRemove l k = (remAt l k, true, some w) := by
  have hsf := stopFound_lookup (k := k) h
  rw [hLook] at hsf
  simp only [Option.isSome_some] at hsf
  rcases hd : l.dropWhile (pkLt k) with _ | ⟨n, tl⟩
  · rw [hd, stopFound] at hsf; exact absurd hsf (by simp)
  · rw [hd, stopFound] at hsf
    have hc : compare n.key k = Ordering.eq := by simpa using hsf
    have hval := stop_eq_lookup h hd hc
    rw [hLook] at hval
    have hw : n.value = w := by
      have := hval.symm
      injection this
    have hl : l = l.takeWhile (pkLt k) ++ n :: tl := by
      rw [← hd, List.takeWhile_append_dropWhile]
    have hget : l.get? (l.takeWhile (pkLt k)).length = some n :=
      get_at_split hl rfl
    have hdrop : l.drop ((l.takeWhile (pkLt k)).length + 1) = tl := by
      have h2 : ((l.takeWhile (pkLt k)) ++ [n]) ++ tl = l := by
        rw [List.append_assoc]
        simpa using hl.symm
      have h3 := @List.drop_left' _ (l.takeWhile (pkLt k) ++ [n]) tl
        ((l.takeWhile (pkLt k)).length + 1) (by simp)
      rw [h2] at h3
      exact h3
    rw [hmRemove, findHarrisMichael_clean [] h.1]
    simp only [hd, stopFound, hc, List.nil_append, List.length_nil,
      Nat.zero_add]
    simp [take_eq_takeWhile (k := k) l, hdrop, hget, hw, remAt, hd]
    exact ⟨n, by simpa using hget, hw⟩

theorem hhsGet_spec {k : K} {l : List (LNode K V)} (h : InvL l) :
    hhsGet l k = (l, (aLookup k (absL l)).isSome, aLookup k (absL l)) := by
  have hsf := stopFound_lookup (k := k) h
  rw [hhsGet, findHHS_dropWhile]
  rcases hd : l.dropWhile (pkLt k) with _ | ⟨n, tl⟩
  · rw [hd, stopFound] at hsf
    simp at hsf
    simp [hhsStop, ← hsf]
  · have hmem : n ∈ l := by
      have : n ∈ l.takeWhile (pkLt k) ++ l.dropWhile (pkLt k) :=
        List.mem_append.mpr (Or.inr (by rw [hd]; simp))
      rwa [List.takeWhile_append_dropWhile] at this
    have hmk : n.marked = false := h.1 n hmem
    rcases hc : compare n.key k with _ | _ | _
    · exact absurd (dropWhile_cons_false hd) (by simp [pkLt, hc])
    · have hval := stop_eq_lookup h hd hc
      rw [hhsStop, hc, hval]
      simp [hmk]
    · rw [hd, stopFound, hc] at hsf
      simp at hsf
      rcases hLook : aLookup k (absL l) with _ | w
      · rw [hhsStop, hc]
        simp
      · rw [hLook] at hsf
        simp at hsf

end ListOpSpec

/-! ## Lemmas: Natarajan-Mittal tree -/

namespace NMTree

/-- `Key` ordering embeds into `WithTop K`, with `Inf` as the top. -/
def toW : NMKey K → WithTop K
  | .fin a => (a : WithTop K)
  | .inf => ⊤

/-- Observable content: finite leaves with their values, inorder. -/
def absNM : NMTree K V → List (K × V)
  | .leaf (.fin a) (some v) => [(a, v)]
  | .leaf (.fin _) none => []
  | .leaf .inf _ => []
  | .internal _ l r => absNM l ++ absNM r

/-- Invariant of sequentially reachable trees: finite leaves carry values,
and an internal node's key separates the finite leaf keys of its subtrees
(strictly below on the left, at or above on the right). -/
def NMInv [LinearOrder K] : NMTree K V → Prop
  | .leaf (.fin _) v => v.isSome = true
  | .leaf .inf _ => True
  | .internal kk l r => NMInv l ∧ NMInv r ∧
      (∀ p ∈ absNM l, (p.1 : WithTop K) < toW kk) ∧
      (∀ p ∈ absNM r, toW kk ≤ (p.1 : WithTop K))

/-- The tree rooted at an internal node. -/
def IsInternal : NMTree K V → Prop
  | .leaf _ _ => False
  | .internal _ _ _ => True

section NMLemmas

variable [LinearOrder K]

theorem nmKeyCmpK_fin (a k : K) : nmKeyCmpK (NMKey.fin a) k = compare a k :=
  rfl

theorem nmKeyCmpK_gt_iff {kk : NMKey K} {k : K} :
    nmKeyCmpK kk k = .gt ↔ (k : WithTop K) < toW kk := by
  cases kk with
  | fin a =>
    rw [nmKeyCmpK_fin, compare_gt_iff_gt]
    exact (WithTop.coe_lt_coe).symm
  | inf => simp [nmKeyCmpK, toW, WithTop.coe_lt_top]

theorem nmKeyCmpK_not_gt {kk : NMKey K} {k : K}
    (h : ¬ nmKeyCmpK kk k = .gt) : toW kk ≤ (k : WithTop K) := by
  cases kk with
  | fin a =>
    rw [nmKeyCmpK_fin] at h
    have : ¬ k < a := fun hlt => h (compare_gt_iff_gt.mpr hlt)
    exact WithTop.coe_le_coe.mpr (le_of_not_lt this)
  | inf => exact absurd rfl h

theorem nmKeyCmpK_eq_iff {kk : NMKey K} {k : K} :
    nmKeyCmpK kk k = .eq ↔ kk = .fin k := by
  cases kk with
  | fin a =>
    rw [nmKeyCmpK_fin, compare_eq_iff_eq]
    constructor
    · intro h; rw [h]
    · intro h; injection h
  | inf => simp [nmKeyCmpK]

theorem notin_right {kk : NMKey K} {l r : NMTree K V} {k : K}
    (h : NMInv (NMTree.internal kk l r)) (hgt : nmKeyCmpK kk k = .gt) :
    aLookup k (absNM r) = none := by
  rw [aLookup_eq_none]
  intro p hp
  have h1 : toW kk ≤ (p.1 : WithTop K) := h.2.2.2 p hp
  have h2 : (k : WithTop K) < toW kk := nmKeyCmpK_gt_iff.mp hgt
  have : (k : WithTop K) < (p.1 : WithTop K) := lt_of_lt_of_le h2 h1
  exact fun he => absurd this (by simp [he])

theorem notin_left {kk : NMKey K} {l r : NMTree K V} {k : K}
    (h : NMInv (NMTree.internal kk l r)) (hng : ¬ nmKeyCmpK kk k = .gt) :
    aLookup k (absNM l) = none := by
  rw [aLookup_eq_none]
  intro p hp
  have h1 : (p.1 : WithTop K) < toW kk := h.2.2.1 p hp
  have h2 : toW kk ≤ (k : WithTop K) := nmKeyCmpK_not_gt hng
  have : (p.1 : WithTop K) < (k : WithTop K) := lt_of_lt_of_le h1 h2
  exact fun he => absurd this (by simp [he])

theorem absNM_sorted {t : NMTree K V} (h : NMInv t) : ASorted (absNM t) := by
  induction t with
  | leaf kk v =>
    cases kk with
    | fin a => cases v <;> simp [absNM, ASorted]
    | inf => simp [absNM, ASorted]
  | internal kk l r ihl ihr =>
    rw [absNM, ASorted, List.pairwise_append]
    refine ⟨ihl h.1, ihr h.2.1, ?_⟩
    intro p hp q hq
    have h1 : (p.1 : WithTop K) < toW kk := h.2.2.1 p hp
    have h2 : toW kk ≤ (q.1 : WithTop K) := h.2.2.2 q hq
    have := lt_of_lt_of_le h1 h2
    exact_mod_cast this

theorem nmGet_spec {k : K} {t : NMTree K V} (h : NMInv t) :
    (nmGet t k).1 = (aLookup k (absNM t)).isSome ∧
      ((aLookup k (absNM t)).isSome = true →
        (nmGet t k).2 = aLookup k (absNM t)) := by
  induction t with
  | leaf kk v =>
    cases kk with
    | fin a =>
      rcases hv : v with _ | w
      · rw [hv] at h; rw [NMInv] at h; simp at h
      · rw [nmGet]
        simp only [seekLeaf, rootKey, rootValue]
        rw [absNM]
        rcases hc : compare a k with _ | _ | _
        · have : ¬ a = k := fun he =>
            absurd (compare_eq_iff_eq.mpr he) (by rw [hc]; simp)
          simp [aLookup, nmKeyCmpK_fin, hc, this]
        · have ha : a = k := compare_eq_iff_eq.mp hc
          simp [aLookup, nmKeyCmpK_fin, hc, ha, compare_eq_iff_eq]
        · have : ¬ a = k := fun he =>
            absurd (compare_eq_iff_eq.mpr he) (by rw [hc]; simp)
          simp [aLookup, nmKeyCmpK_fin, hc, this]
    | inf =>
      rw [nmGet]
      simp [seekLeaf, rootKey, rootValue, absNM, nmKeyCmpK, aLookup]
  | internal kk l r ihl ihr =>
    rw [nmGet]
    by_cases hdir : nmKeyCmpK kk k = .gt
    · have hnr : aLookup k (absNM r) = none := notin_right h hdir
      have hlook : aLookup k (absNM (NMTree.internal kk l r))
          = aLookup k (absNM l) := by
        rw [absNM]
        rcases hLl : aLookup k (absNM l) with _ | w
        · rw [aLookup_append_right (aLookup_eq_none.mp hLl), hnr]
        · exact aLookup_append_left hLl
      rw [hlook]
      simp only [seekLeaf, if_pos hdir]
      exact (ihl h.1)
    · have hnl : aLookup k (absNM l) = none := notin_left h hdir
      have hlook : aLookup k (absNM (NMTree.internal kk l r))
          = aLookup k (absNM r) := by
        rw [absNM, aLookup_append_right (aLookup_eq_none.mp hnl)]
      rw [hlook]
      simp only [seekLeaf, if_neg hdir]
      exact (ihr h.2.1)

theorem aLookup_append_none {k : K} {A B : List (K × V)} :
    aLookup k (A ++ B) = none ↔ aLookup k A = none ∧ aLookup k B = none := by
  simp only [aLookup_eq_none, List.mem_append]
  constructor
  · intro h
    exact ⟨fun p hp => h p (Or.inl hp), fun p hp => h p (Or.inr hp)⟩
  · rintro ⟨h1, h2⟩ p (hp | hp)
    · exact h1 p hp
    · exact h2 p hp

theorem aInsert_append_left {k : K} {v : V} {A B : List (K × V)}
    (hB : ∀ p ∈ B, k < p.1) : aInsert k v (A ++ B) = aInsert k v A ++ B := by
  induction A with
  | nil =>
    cases B with
    | nil => rfl
    | cons q tl =>
      have : k < q.1 := hB q (by simp)
      simp [aInsert, this]
  | cons p tl ih =>
    by_cases h1 : k < p.1
    · simp [aInsert, h1]
    · by_cases h2 : k = p.1
      · simp [aInsert, h1, h2]
      · simp only [List.cons_append, aInsert, if_neg h1, if_neg h2]
        exact congrArg (p :: ·) ih

theorem nmInsertAux_present {k : K} {v : V} {t : NMTree K V} (h : NMTree.NMInv t)
    (hp : (aLookup k (NMTree.absNM t)).isSome = true) :
    NMTree.nmInsertAux k v t = none := by
  induction t with
  | leaf kk vv =>
    cases kk with
    | fin a =>
      rcases hv : vv with _ | w
      · rw [hv] at h; rw [NMTree.NMInv] at h; simp at h
      · rw [hv] at hp
        rw [NMTree.absNM] at hp
        have ha : a = k := by
          by_cases he : a = k
          · exact he
          · rw [aLookup, if_neg he] at hp; simp [aLookup] at hp
        rw [NMTree.nmInsertAux, nmKeyCmpK_fin,
          show compare a k = Ordering.eq from compare_eq_iff_eq.mpr ha]
    | inf => rw [NMTree.absNM] at hp; simp [aLookup] at hp

  | internal kk l r ihl ihr =>
    rw [NMTree.absNM] at hp
    by_cases hdir : nmKeyCmpK kk k = .gt
    · have hnr := NMTree.notin_right h hdir
      have hl : (aLookup k (NMTree.absNM l)).isSome = true := by
        rcases hLl : aLookup k (NMTree.absNM l) with _ | w
        · rw [aLookup_append_right (aLookup_eq_none.mp hLl), hnr] at hp
          simp at hp
        · simp
      rw [NMTree.nmInsertAux, if_pos hdir, ihl h.1 hl]
      rfl
    · have hnl := NMTree.notin_left h hdir
      have hr : (aLookup k (NMTree.absNM r)).isSome = true := by
        rw [aLookup_append_right (aLookup_eq_none.mp hnl)] at hp
        exact hp
      rw [NMTree.nmInsertAux, if_neg hdir, ihr h.2.1 hr]
      rfl

theorem nmInsertAux_absent {k : K} {v : V} {t : NMTree K V} (h : NMTree.NMInv t)
    (habs : aLookup k (NMTree.absNM t) = none) :
    ∃ t2, NMTree.nmInsertAux k v t = some t2 ∧ NMTree.NMInv t2 ∧
      NMTree.absNM t2 = aInsert k v (NMTree.absNM t) := by
  induction t with
  | leaf kk vv =>
    cases kk with
    | fin a =>
      cases vv with
      | none => rw [NMTree.NMInv] at h; simp at h
      | some w =>
        simp only [NMTree.absNM] at habs ⊢
        have ha : ¬ a = k := by
          intro he
          simp [aLookup, he] at habs
        rcases hc : compare a k with _ | _ | _
        · have hak : a < k := compare_lt_iff_lt.mp hc
          refine ⟨NMTree.internal (.fin k) (NMTree.leaf (.fin a) (some w))
            (NMTree.leaf (.fin k) (some v)), ?_, ?_, ?_⟩
          · rw [NMTree.nmInsertAux, nmKeyCmpK_fin, hc]
          · refine ⟨by simp [NMTree.NMInv], by simp [NMTree.NMInv], ?_, ?_⟩
            · intro p hp
              simp only [NMTree.absNM, List.mem_singleton] at hp
              rw [hp]
              simp only [toW]
              exact_mod_cast hak
            · intro p hp
              simp only [NMTree.absNM, List.mem_singleton] at hp
              rw [hp]
              simp [toW]
          · have hka2 : ¬ k = a := fun he => ha he.symm
            simp only [NMTree.absNM]
            simp [aInsert, not_lt_of_lt hak, hka2]
        · exact absurd (compare_eq_iff_eq.mp hc) ha
        · have hka : k < a := compare_gt_iff_gt.mp hc
          refine ⟨NMTree.internal (.fin a) (NMTree.leaf (.fin k) (some v))
            (NMTree.leaf (.fin a) (some w)), ?_, ?_, ?_⟩
          · rw [NMTree.nmInsertAux, nmKeyCmpK_fin, hc]
          · refine ⟨by simp [NMTree.NMInv], by simp [NMTree.NMInv], ?_, ?_⟩
            · intro p hp
              simp only [NMTree.absNM, List.mem_singleton] at hp
              rw [hp]
              simp only [toW]
              exact_mod_cast hka
            · intro p hp
              simp only [NMTree.absNM, List.mem_singleton] at hp
              rw [hp]
              simp [toW]
          · simp only [NMTree.absNM]
            simp [aInsert, hka]
    | inf =>
      refine ⟨NMTree.internal .inf (NMTree.leaf (.fin k) (some v))
        (NMTree.leaf .inf vv), ?_, ?_, ?_⟩
      · rw [NMTree.nmInsertAux]
        rfl
      · refine ⟨by simp [NMTree.NMInv], by cases vv <;> simp [NMTree.NMInv],
          ?_, ?_⟩
        · intro p hp
          simp only [NMTree.absNM, List.mem_singleton] at hp
          rw [hp]
          exact WithTop.coe_lt_top _
        · intro p hp
          cases vv <;> simp [NMTree.absNM] at hp
      · cases vv <;> simp [NMTree.absNM, aInsert]
  | internal kk l r ihl ihr =>
    rw [NMTree.absNM] at habs
    rcases aLookup_append_none.mp habs with ⟨hnl, hnr⟩
    by_cases hdir : nmKeyCmpK kk k = .gt
    · rcases ihl h.1 hnl with ⟨l2, heq, hinv2, habs2⟩
      refine ⟨NMTree.internal kk l2 r, ?_, ?_, ?_⟩
      · rw [NMTree.nmInsertAux, if_pos hdir, heq]
        rfl
      · refine ⟨hinv2, h.2.1, ?_, h.2.2.2⟩
        intro p hp
        rw [habs2] at hp
        rcases mem_aInsert hp with hm | he
        · exact h.2.2.1 p hm
        · rw [he]
          exact nmKeyCmpK_gt_iff.mp hdir
      · have hB : ∀ p ∈ NMTree.absNM r, k < p.1 := by
          intro p hp
          have h1 : toW kk ≤ (p.1 : WithTop K) := h.2.2.2 p hp
          have h2 : (k : WithTop K) < toW kk := nmKeyCmpK_gt_iff.mp hdir
          exact_mod_cast lt_of_lt_of_le h2 h1
        rw [NMTree.absNM, NMTree.absNM, habs2, aInsert_append_left hB]
    · rcases ihr h.2.1 hnr with ⟨r2, heq, hinv2, habs2⟩
      refine ⟨NMTree.internal kk l r2, ?_, ?_, ?_⟩
      · rw [NMTree.nmInsertAux, if_neg hdir, heq]
        rfl
      · refine ⟨h.1, hinv2, h.2.2.1, ?_⟩
        intro p hp
        rw [habs2] at hp
        rcases mem_aInsert hp with hm | he
        · exact h.2.2.2 p hm
        · rw [he]
          exact nmKeyCmpK_not_gt hdir
      · have hA : ∀ p ∈ NMTree.absNM l, p.1 < k := by
          intro p hp
          have h1 : (p.1 : WithTop K) < toW kk := h.2.2.1 p hp
          have h2 : toW kk ≤ (k : WithTop K) := nmKeyCmpK_not_gt hdir
          exact_mod_cast lt_of_lt_of_le h1 h2
        rw [NMTree.absNM, NMTree.absNM, habs2, aInsert_append_right hA]

theorem aRemove_append_left {k : K} {A B : List (K × V)}
    (hB : ∀ p ∈ B, p.1 ≠ k) : aRemove k (A ++ B) = aRemove k A ++ B := by
  induction A with
  | nil =>
    simp only [List.nil_append, aRemove]
    exact aRemove_absent (aLookup_eq_none.mpr hB)
  | cons p tl ih =>
    by_cases hp : p.1 = k
    · simp [aRemove, hp]
    · simp only [List.cons_append, aRemove, if_neg hp]
      exact congrArg (p :: ·) ih

theorem nmRemoveAux_absent {k : K} {t : NMTree K V} (h : NMInv t)
    (hint : IsInternal t) (habs : aLookup k (absNM t) = none) :
    nmRemoveAux k t = none := by
  induction t with
  | leaf kk vv => exact absurd hint (by rw [IsInternal]; simp)
  | internal kk l r ihl ihr =>
    rw [absNM] at habs
    rcases aLookup_append_none.mp habs with ⟨hnl, hnr⟩
    by_cases hdir : nmKeyCmpK kk k = .gt
    · cases l with
      | leaf lk lv =>
        have hne : ¬ nmKeyCmpK lk k = .eq := by
          cases lk with
          | fin a =>
            rcases hv : lv with _ | u
            · rw [hv] at h
              have := h.1
              rw [NMInv] at this
              simp at this
            · intro hc
              have ha : a = k := by
                rw [nmKeyCmpK_fin] at hc
                exact compare_eq_iff_eq.mp hc
              rw [hv, ha] at hnl
              simp [absNM, aLookup] at hnl
          | inf =>
            rw [show nmKeyCmpK (NMKey.inf : NMKey K) k = .gt from rfl]
            simp
        rw [nmRemoveAux.eq_def]
        simp only []
        rw [if_pos hdir, if_neg hne]
      | internal a b c =>
        rw [nmRemoveAux.eq_def]
        simp only []
        rw [if_pos hdir, ihl h.1 (by rw [IsInternal]; trivial) hnl]
        rfl
    · cases r with
      | leaf rk rv =>
        have hne : ¬ nmKeyCmpK rk k = .eq := by
          cases rk with
          | fin a =>
            rcases hv : rv with _ | u
            · rw [hv] at h
              have := h.2.1
              rw [NMInv] at this
              simp at this
            · intro hc
              have ha : a = k := by
                rw [nmKeyCmpK_fin] at hc
                exact compare_eq_iff_eq.mp hc
              rw [hv, ha] at hnr
              simp [absNM, aLookup] at hnr
          | inf =>
            rw [show nmKeyCmpK (NMKey.inf : NMKey K) k = .gt from rfl]
            simp
        rw [nmRemoveAux.eq_def]
        simp only []
        rw [if_neg hdir, if_neg hne]
      | internal a b c =>
        rw [nmRemoveAux.eq_def]
        simp only []
        rw [if_neg hdir, ihr h.2.1 (by rw [IsInternal]; trivial) hnr]
        rfl

theorem nmRemoveAux_present {k : K} {w : V} {t : NMTree K V} (h : NMInv t)
    (hint : IsInternal t) (hl : aLookup k (absNM t) = some w) :
    ∃ t2, nmRemoveAux k t = some (t2, some w) ∧ NMInv t2 ∧
      absNM t2 = aRemove k (absNM t) := by
  induction t with
  | leaf kk vv => exact absurd hint (by rw [IsInternal]; simp)
  | internal kk l r ihl ihr =>
    rw [absNM] at hl ⊢
    by_cases hdir : nmKeyCmpK kk k = .gt
    · have hnr : aLookup k (absNM r) = none := notin_right h hdir
      have hLl : aLookup k (absNM l) = some w := by
        rcases hx : aLookup k (absNM l) with _ | u
        · rw [aLookup_append_right (aLookup_eq_none.mp hx), hnr] at hl
          exact Option.noConfusion hl
        · rw [aLookup_append_left hx] at hl
          exact hl
      have hrem : aRemove k (absNM l ++ absNM r)
          = aRemove k (absNM l) ++ absNM r :=
        aRemove_append_left (aLookup_eq_none.mp hnr)
      cases l with
      | leaf lk lv =>
        cases lk with
        | fin a =>
          rcases hv : lv with _ | u
          · rw [hv] at h
            have := h.1
            rw [NMInv] at this
            simp at this
          · rw [hv] at hLl hrem
            simp only [absNM] at hLl hrem ⊢
            have ha : a = k := by
              by_cases he : a = k
              · exact he
              · rw [aLookup, if_neg he] at hLl
                simp [aLookup] at hLl
            have hu : u = w := by
              rw [aLookup, if_pos ha] at hLl
              injection hLl
            have heqk : nmKeyCmpK (NMKey.fin a) k = .eq := by
              rw [nmKeyCmpK_fin, compare_eq_iff_eq]
              exact ha
            refine ⟨r, ?_, h.2.1, ?_⟩
            · rw [nmRemoveAux.eq_def]
              simp only []
              rw [if_pos hdir, if_pos heqk, hu]
            · rw [hrem]
              have : aRemove k ([(a, u)] : List (K × V)) = [] := by
                simp [aRemove, ha]
              rw [this]
              simp
        | inf =>
          simp [absNM, aLookup] at hLl
      | internal a b c =>
        rcases ihl h.1 (by rw [IsInternal]; trivial) hLl with
          ⟨l2, heq, hinv2, habs2⟩
        refine ⟨internal kk l2 r, ?_, ?_, ?_⟩
        · rw [nmRemoveAux.eq_def]
          simp only []
          rw [if_pos hdir, heq]
          rfl
        · refine ⟨hinv2, h.2.1, ?_, h.2.2.2⟩
          intro p hp
          rw [habs2] at hp
          exact h.2.2.1 p (aRemove_sublist.subset hp)
        · rw [absNM, habs2, hrem]
    · have hnl : aLookup k (absNM l) = none := notin_left h hdir
      have hLr : aLookup k (absNM r) = some w := by
        rw [aLookup_append_right (aLookup_eq_none.mp hnl)] at hl
        exact hl
      have hrem : aRemove k (absNM l ++ absNM r)
          = absNM l ++ aRemove k (absNM r) :=
        aRemove_append_right (aLookup_eq_none.mp hnl)
      cases r with
      | leaf rk rv =>
        cases rk with
        | fin a =>
          rcases hv : rv with _ | u
          · rw [hv] at h
            have := h.2.1
            rw [NMInv] at this
            simp at this
          · rw [hv] at hLr hrem
            simp only [absNM] at hLr hrem ⊢
            have ha : a = k := by
              by_cases he : a = k
              · exact he
              · rw [aLookup, if_neg he] at hLr
                simp [aLookup] at hLr
            have hu : u = w := by
              rw [aLookup, if_pos ha] at hLr
              injection hLr
            have heqk : nmKeyCmpK (NMKey.fin a) k = .eq := by
              rw [nmKeyCmpK_fin, compare_eq_iff_eq]
              exact ha
            refine ⟨l, ?_, h.1, ?_⟩
            · rw [nmRemoveAux.eq_def]
              simp only []
              rw [if_neg hdir, if_pos heqk, hu]
            · rw [hrem]
              have : aRemove k ([(a, u)] : List (K × V)) = [] := by
                simp [aRemove, ha]
              rw [this]
              simp
        | inf =>
          simp [absNM, aLookup] at hLr
      | internal a b c =>
        rcases ihr h.2.1 (by rw [IsInternal]; trivial) hLr with
          ⟨r2, heq, hinv2, habs2⟩
        refine ⟨internal kk l r2, ?_, ?_, ?_⟩
        · rw [nmRemoveAux.eq_def]
          simp only []
          rw [if_neg hdir, heq]
          rfl
        · refine ⟨h.1, hinv2, h.2.2.1, ?_⟩
          intro p hp
          rw [habs2] at hp
          exact h.2.2.2 p (aRemove_sublist.subset hp)
        · rw [absNM, habs2, hrem]

end NMLemmas

/-- Right-spine discipline of reachable subtrees: a reachable subtree that is
a single leaf is an `Inf` sentinel, and this holds along the right spine
(insert places new internal nodes so that the old leaf stays on the right of
the spine only when it is the sentinel). -/
def RInv : NMTree K V → Prop
  | .leaf kk _ => kk = .inf
  | .internal _ _ r => RInv r

/-- Reachable `NMTreeMap` states: the fixed root and right sentinel of the
5-node skeleton, a right-spine-disciplined middle subtree, and the search
invariant. -/
def NMReach [LinearOrder K] (t : NMTree K V) : Prop :=
  (∃ sub, t = NMTree.internal .inf sub (NMTree.leaf .inf none) ∧ RInv sub)
    ∧ NMInv t

section NMReachLemmas

variable [LinearOrder K]

theorem rinv_insert {k : K} {v : V} {t t2 : NMTree K V} (h : RInv t)
    (he : nmInsertAux k v t = some t2) : RInv t2 := by
  induction t generalizing t2 with
  | leaf kk vv =>
    rw [RInv] at h
    subst h
    rw [nmInsertAux] at he
    rw [show nmKeyCmpK (NMKey.inf : NMKey K) k = .gt from rfl] at he
    simp at he
    rw [← he, RInv, RInv]
  | internal kk l r ihl ihr =>
    rw [RInv] at h
    rw [nmInsertAux] at he
    by_cases hdir : nmKeyCmpK kk k = .gt
    · rw [if_pos hdir] at he
      rcases hx : nmInsertAux k v l with _ | l2
      · rw [hx] at he; simp at he
      · rw [hx] at he
        simp at he
        rw [← he, RInv]
        exact h
    · rw [if_neg hdir] at he
      rcases hx : nmInsertAux k v r with _ | r2
      · rw [hx] at he; simp at he
      · rw [hx] at he
        simp at he
        rw [← he, RInv]
        exact ihr h hx

theorem rinv_remove {k : K} {t t2 : NMTree K V} {w : Option V} (h : RInv t)
    (he : nmRemoveAux k t = some (t2, w)) : RInv t2 := by
  induction t generalizing t2 w with
  | leaf kk vv =>
    rw [nmRemoveAux] at he
    exact Option.noConfusion he
  | internal kk l r ihl ihr =>
    rw [RInv] at h
    rw [nmRemoveAux.eq_def] at he
    simp only [] at he
    by_cases hdir : nmKeyCmpK kk k = .gt
    · rw [if_pos hdir] at he
      cases l with
      | leaf lk lv =>
        simp only [] at he
        by_cases heq : nmKeyCmpK lk k = .eq
        · rw [if_pos heq] at he
          simp at he
          rw [← he.1]
          exact h
        · rw [if_neg heq] at he
          exact Option.noConfusion he
      | internal a b c =>
        simp only [] at he
        rcases hx : nmRemoveAux k (NMTree.internal a b c) with _ | ⟨l2, w2⟩
        · rw [hx] at he; simp at he
        · rw [hx] at he
          simp at he
          rw [← he.1, RInv]
          exact h
    · rw [if_neg hdir] at he
      cases r with
      | leaf rk rv =>
        simp only [] at he
        rw [RInv] at h
        subst h
        have hgt : nmKeyCmpK (NMKey.inf : NMKey K) k = .gt := rfl
        rw [if_neg (by rw [hgt]; simp)] at he
        exact Option.noConfusion he
      | internal a b c =>
        simp only [] at he
        rcases hx : nmRemoveAux k (NMTree.internal a b c) with _ | ⟨r2, w2⟩
        · rw [hx] at he; simp at he
        · rw [hx] at he
          simp at he
          rw [← he.1, RInv]
          exact ihr h hx

theorem nmInsertAux_internal_shape {k : K} {v : V} {kk : NMKey K}
    {l r : NMTree K V} {t2 : NMTree K V}
    (he : nmInsertAux k v (NMTree.internal kk l r) = some t2) :
    ∃ l2 r2, t2 = NMTree.internal kk l2 r2 := by
  rw [nmInsertAux] at he
  by_cases hdir : nmKeyCmpK kk k = .gt
  · rw [if_pos hdir] at he
    rcases hx : nmInsertAux k v l with _ | l2
    · rw [hx] at he; simp at he
    · rw [hx] at he
      simp at he
      exact ⟨l2, r, he.symm⟩
  · rw [if_neg hdir] at he
    rcases hx : nmInsertAux k v r with _ | r2
    · rw [hx] at he; simp at he
    · rw [hx] at he
      simp at he
      exact ⟨l, r2, he.symm⟩

theorem nmNew_inv : NMInv (nmNew : NMTree K V) := by
  refine ⟨⟨trivial, trivial, ?_, ?_⟩, trivial, ?_, ?_⟩ <;>
    intro p hp <;> simp [absNM] at hp

theorem nmNew_reach : NMReach (nmNew : NMTree K V) := by
  refine ⟨⟨NMTree.internal .inf (NMTree.leaf .inf none)
    (NMTree.leaf .inf none), rfl, ?_⟩, nmNew_inv⟩
  rw [RInv, RInv]

theorem nmNew_abs : absNM (nmNew : NMTree K V) = [] := rfl

end NMReachLemmas

end NMTree

/-! ## Lemmas: Bonsai tree -/

namespace BT

/-- Observable content: inorder key/value pairs. -/
def absBT : BT K V → List (K × V)
  | nil => []
  | node k v _ l r => absBT l ++ (k, v) :: absBT r

/-- The stored `size` field of every node equals one plus the stored sizes
of its children (hence, inductively, the subtree node count). -/
def SizeOk : BT K V → Prop
  | nil => True
  | node _ _ sz l r => sz = nodeSize l + nodeSize r + 1 ∧ SizeOk l ∧ SizeOk r

/-- The number of nodes of a subtree. -/
def numNodes : BT K V → Nat
  | nil => 0
  | node _ _ _ l r => numNodes l + numNodes r + 1

section BTBasic

theorem sizeOk_nil_of {t : BT K V} (h : SizeOk t) (hz : nodeSize t = 0) :
    t = nil := by
  cases t with
  | nil => rfl
  | node k v sz l r =>
    rw [SizeOk] at h
    rw [nodeSize, h.1] at hz
    simp at hz

theorem ne_nil_of_size_pos {t : BT K V} (hz : 0 < nodeSize t) : t ≠ nil := by
  intro he
  rw [he, nodeSize] at hz
  simp at hz

theorem isNil_false_iff {t : BT K V} : isNil t = false ↔ t ≠ nil := by
  cases t <;> simp [isNil]

theorem sizeOk_numNodes {t : BT K V} (h : SizeOk t) :
    nodeSize t = numNodes t := by
  induction t with
  | nil => rfl
  | node k v sz l r ihl ihr =>
    rw [SizeOk] at h
    rw [nodeSize, numNodes, h.1, ihl h.2.1, ihr h.2.2]

theorem mkNode_sizeOk {l r : BT K V} {k : K} {v : V} (hl : SizeOk l)
    (hr : SizeOk r) : SizeOk (mkNode l r k v) :=
  ⟨rfl, hl, hr⟩

theorem absBT_mkNode (l r : BT K V) (k : K) (v : V) :
    absBT (mkNode l r k v) = absBT l ++ (k, v) :: absBT r := rfl

/-- The left-rebalance guard of `mk_balanced`, as in the source. -/
def needLeft (ls rs : Nat) : Prop :=
  0 < rs ∧ ((0 < ls ∧ WEIGHT * ls < rs) ∨ (ls = 0 ∧ WEIGHT < rs))

/-- The right-rebalance guard of `mk_balanced`. -/
def needRight (ls rs : Nat) : Prop :=
  0 < ls ∧ ((0 < rs ∧ WEIGHT * rs < ls) ∨ (rs = 0 ∧ WEIGHT < ls))

instance (ls rs : Nat) : Decidable (needLeft ls rs) := by
  rw [needLeft]; infer_instance

instance (ls rs : Nat) : Decidable (needRight ls rs) := by
  rw [needRight]; infer_instance

theorem mkBalanced_eq (k : K) (v : V) (sz : Nat) (l0 r0 l r : BT K V) :
    mkBalanced (node k v sz l0 r0) l r =
      if needLeft (nodeSize l) (nodeSize r) then mkBalancedLeft l r k v
      else if needRight (nodeSize l) (nodeSize r) then mkBalancedRight l r k v
      else mkNode l r k v := rfl

/-- The guard `needLeft` is exactly the violation of the weight-balance
inequality `r ≤ W·max(l,1)` (with `W = 2`). -/
theorem needLeft_iff (ls rs : Nat) :
    needLeft ls rs ↔ WEIGHT * max ls 1 < rs := by
  rw [needLeft, WEIGHT]
  rcases Nat.eq_zero_or_pos ls with h0 | hpos
  · subst h0
    constructor
    · rintro ⟨hr, h⟩
      rcases h with ⟨h1, _⟩ | ⟨_, h2⟩
      · exact absurd h1 (by simp)
      · simpa using h2
    · intro h
      simp only [Nat.max_eq_right (by norm_num : (0 : Nat) ≤ 1)] at h
      exact ⟨by omega, Or.inr ⟨rfl, by omega⟩⟩
  · have hmax : max ls 1 = ls := Nat.max_eq_left hpos
    rw [hmax]
    constructor
    · rintro ⟨hr, h⟩
      rcases h with ⟨_, h1⟩ | ⟨h2, _⟩
      · exact h1
      · omega
    · intro h
      exact ⟨by omega, Or.inl ⟨hpos, h⟩⟩

theorem needRight_iff (ls rs : Nat) :
    needRight ls rs ↔ WEIGHT * max rs 1 < ls := by
  rw [needRight, WEIGHT]
  rcases Nat.eq_zero_or_pos rs with h0 | hpos
  · subst h0
    constructor
    · rintro ⟨hl, h⟩
      rcases h with ⟨h1, _⟩ | ⟨_, h2⟩
      · exact absurd h1 (by simp)
      · simpa using h2
    · intro h
      simp only [Nat.max_eq_right (by norm_num : (0 : Nat) ≤ 1)] at h
      exact ⟨by omega, Or.inr ⟨rfl, by omega⟩⟩
  · have hmax : max rs 1 = rs := Nat.max_eq_left hpos
    rw [hmax]
    constructor
    · rintro ⟨hl, h⟩
      rcases h with ⟨_, h1⟩ | ⟨h2, _⟩
      · exact h1
      · omega
    · intro h
      exact ⟨by omega, Or.inl ⟨hpos, h⟩⟩

theorem mkBalanced_abs {l r : BT K V} {k : K} {v : V} {sz : Nat}
    {l0 r0 : BT K V} (hl : SizeOk l) (hr : SizeOk r) :
    absBT (mkBalanced (node k v sz l0 r0) l r)
      = absBT l ++ (k, v) :: absBT r := by
  rw [mkBalanced_eq]
  by_cases hnl : needLeft (nodeSize l) (nodeSize r)
  · rw [if_pos hnl]
    have hrpos : 0 < nodeSize r := hnl.1
    cases r with
    | nil => rw [nodeSize] at hrpos; simp at hrpos
    | node rk rv rsz rl rr =>
      rw [SizeOk] at hr
      rw [mkBalancedLeft]
      by_cases hrot : nodeSize rl < nodeSize rr
      · rw [if_pos hrot, singleLeft, absBT_mkNode, absBT_mkNode]
        rw [absBT]
        simp
      · rw [if_neg hrot]
        have hrs3 : 3 ≤ nodeSize (node rk rv rsz rl rr) := by
          rw [needLeft] at hnl
          rcases hnl.2 with ⟨hls, hlt⟩ | ⟨hls, hlt⟩
          · rw [WEIGHT] at hlt
            omega
          · rw [WEIGHT] at hlt
            omega
        have hrlpos : 0 < nodeSize rl := by
          rw [nodeSize, hr.1] at hrs3
          omega
        cases rl with
        | nil => rw [nodeSize] at hrlpos; simp at hrlpos
        | node rlk rlv rlsz rll rlr =>
          rw [doubleLeft, absBT_mkNode, absBT_mkNode, absBT_mkNode]
          rw [absBT, absBT]
          simp
  · rw [if_neg hnl]
    by_cases hnr : needRight (nodeSize l) (nodeSize r)
    · rw [if_pos hnr]
      have hlpos : 0 < nodeSize l := hnr.1
      cases l with
      | nil => rw [nodeSize] at hlpos; simp at hlpos
      | node lk lv lsz ll lr =>
        rw [SizeOk] at hl
        rw [mkBalancedRight]
        by_cases hrot : nodeSize lr < nodeSize ll
        · rw [if_pos hrot, singleRight, absBT_mkNode, absBT_mkNode]
          rw [absBT]
          simp
        · rw [if_neg hrot]
          have hls3 : 3 ≤ nodeSize (node lk lv lsz ll lr) := by
            rw [needRight] at hnr
            rcases hnr.2 with ⟨hrs, hlt⟩ | ⟨hrs, hlt⟩
            · rw [WEIGHT] at hlt
              omega
            · rw [WEIGHT] at hlt
              omega
          have hlrpos : 0 < nodeSize lr := by
            rw [nodeSize, hl.1] at hls3
            omega
          cases lr with
          | nil => rw [nodeSize] at hlrpos; simp at hlrpos
          | node lrk lrv lrsz lrl lrr =>
            rw [doubleRight, absBT_mkNode, absBT_mkNode, absBT_mkNode]
            rw [absBT, absBT]
            simp
    · rw [if_neg hnr, absBT_mkNode]

theorem mkBalanced_sizeOk {l r : BT K V} {k : K} {v : V} {sz : Nat}
    {l0 r0 : BT K V} (hl : SizeOk l) (hr : SizeOk r) :
    SizeOk (mkBalanced (node k v sz l0 r0) l r) := by
  rw [mkBalanced_eq]
  by_cases hnl : needLeft (nodeSize l) (nodeSize r)
  · rw [if_pos hnl]
    have hrpos : 0 < nodeSize r := hnl.1
    cases r with
    | nil => rw [nodeSize] at hrpos; simp at hrpos
    | node rk rv rsz rl rr =>
      rw [SizeOk] at hr
      rw [mkBalancedLeft]
      by_cases hrot : nodeSize rl < nodeSize rr
      · rw [if_pos hrot, singleLeft]
        exact mkNode_sizeOk (mkNode_sizeOk hl hr.2.1) hr.2.2
      · rw [if_neg hrot]
        have hrs3 : 3 ≤ nodeSize (node rk rv rsz rl rr) := by
          rw [needLeft] at hnl
          rcases hnl.2 with ⟨hls, hlt⟩ | ⟨hls, hlt⟩
          · rw [WEIGHT] at hlt
            omega
          · rw [WEIGHT] at hlt
            omega
        have hrlpos : 0 < nodeSize rl := by
          rw [nodeSize, hr.1] at hrs3
          omega
        cases rl with
        | nil => rw [nodeSize] at hrlpos; simp at hrlpos
        | node rlk rlv rlsz rll rlr =>
          rw [doubleLeft]
          have h2 := hr.2.1
          rw [SizeOk] at h2
          exact mkNode_sizeOk (mkNode_sizeOk hl h2.2.1)
            (mkNode_sizeOk h2.2.2 hr.2.2)
  · rw [if_neg hnl]
    by_cases hnr : needRight (nodeSize l) (nodeSize r)
    · rw [if_pos hnr]
      have hlpos : 0 < nodeSize l := hnr.1
      cases l with
      | nil => rw [nodeSize] at hlpos; simp at hlpos
      | node lk lv lsz ll lr =>
        rw [SizeOk] at hl
        rw [mkBalancedRight]
        by_cases hrot : nodeSize lr < nodeSize ll
        · rw [if_pos hrot, singleRight]
          exact mkNode_sizeOk hl.2.1 (mkNode_sizeOk hl.2.2 hr)
        · rw [if_neg hrot]
          have hls3 : 3 ≤ nodeSize (node lk lv lsz ll lr) := by
            rw [needRight] at hnr
            rcases hnr.2 with ⟨hrs, hlt⟩ | ⟨hrs, hlt⟩
            · rw [WEIGHT] at hlt
              omega
            · rw [WEIGHT] at hlt
              omega
          have hlrpos : 0 < nodeSize lr := by
            rw [nodeSize, hl.1] at hls3
            omega
          cases lr with
          | nil => rw [nodeSize] at hlrpos; simp at hlrpos
          | node lrk lrv lrsz lrl lrr =>
            rw [doubleRight]
            have h2 := hl.2.2
            rw [SizeOk] at h2
            exact mkNode_sizeOk (mkNode_sizeOk hl.2.1 h2.2.1)
              (mkNode_sizeOk h2.2.2 hr)
    · rw [if_neg hnr]
      exact mkNode_sizeOk hl hr

end BTBasic

section BTSpec

variable [LinearOrder K]

theorem sorted_split {nk : K} {nv : V} {A B : List (K × V)}
    (hs : ASorted (A ++ (nk, nv) :: B)) :
    ASorted A ∧ ASorted B ∧ (∀ p ∈ A, p.1 < nk) ∧ (∀ p ∈ B, nk < p.1) := by
  rw [ASorted, List.pairwise_append] at hs
  rcases hs with ⟨hA, hB, hcross⟩
  rw [List.pairwise_cons] at hB
  refine ⟨hA, hB.2, ?_, hB.1⟩
  intro p hp
  exact hcross p hp (nk, nv) (by simp)

theorem aLookup_append_of_right_none {k : K} {A B : List (K × V)}
    (hB : ∀ p ∈ B, p.1 ≠ k) : aLookup k (A ++ B) = aLookup k A := by
  rcases hx : aLookup k A with _ | u
  · rw [aLookup_append_right (aLookup_eq_none.mp hx)]
    exact aLookup_eq_none.mpr hB
  · exact aLookup_append_left hx

theorem aInsert_lookup_present {k : K} {v w : V} {L : List (K × V)}
    (hs : ASorted L) (hp : aLookup k L = some w) : aInsert k v L = L := by
  induction L with
  | nil => simp [aLookup] at hp
  | cons p tl ih =>
    rw [ASorted, List.pairwise_cons] at hs
    by_cases he : p.1 = k
    · rw [aInsert, if_neg (by rw [he]; exact lt_irrefl k), if_pos he.symm]
    · rw [aLookup, if_neg he] at hp
      have hk : ¬ k < p.1 := by
        intro hlt
        have : aLookup k tl = none := by
          rw [aLookup_eq_none]
          intro q hq
          exact ne_of_gt (hlt.trans (hs.1 q hq))
        rw [this] at hp
        exact Option.noConfusion hp
      rw [aInsert, if_neg hk, if_neg (fun hh => he hh.symm), ih hs.2 hp]

theorem doInsert_spec {k : K} {v : V} :
    ∀ {t : BT K V}, ASorted (BT.absBT t) → BT.SizeOk t →
      BT.absBT (BT.doInsert k v t).1 = aInsert k v (BT.absBT t) ∧
      (BT.doInsert k v t).2 = (aLookup k (BT.absBT t)).isNone ∧
      BT.SizeOk (BT.doInsert k v t).1 := by
  intro t
  induction t with
  | nil =>
    intro _ _
    refine ⟨rfl, rfl, ?_⟩
    exact BT.mkNode_sizeOk trivial trivial
  | node nk nv sz l r ihl ihr =>
    intro hs ho
    rw [BT.absBT] at hs ⊢
    rcases sorted_split hs with ⟨hsl, hsr, hAlt, hBgt⟩
    rw [BT.SizeOk] at ho
    rcases hc : compare nk k with _ | _ | _
    · -- nk < k: insert on the right
      have hnk : nk < k := compare_lt_iff_lt.mp hc
      rcases ihr hsr ho.2.2 with ⟨habs, hfound, hok⟩
      rw [BT.doInsert, hc]
      simp only []
      have hA : ∀ p ∈ BT.absBT l ++ [(nk, nv)], p.1 < k := by
        intro p hp
        rcases List.mem_append.mp hp with h1 | h2
        · exact (hAlt p h1).trans hnk
        · simp at h2
          rw [h2]
          exact hnk
      constructor
      · rw [BT.mkBalanced_abs ho.2.1 hok, habs]
        have h2 := aInsert_append_right (v := v) (B := BT.absBT r) hA
        rw [List.append_assoc] at h2
        simp only [List.singleton_append] at h2
        rw [h2]
        simp
      constructor
      · rw [hfound]
        have h2 := aLookup_append_right (B := BT.absBT r)
          (fun p hp => ne_of_lt (hA p hp))
        rw [List.append_assoc] at h2
        simp only [List.singleton_append] at h2
        rw [h2]
      · exact BT.mkBalanced_sizeOk ho.2.1 hok
    · -- nk = k: present, unchanged
      have hnk : nk = k := compare_eq_iff_eq.mp hc
      rw [BT.doInsert, hc]
      simp only []
      have hAlt2 : ∀ p ∈ BT.absBT l, p.1 < k := fun p hp => by
        rw [← hnk]
        exact hAlt p hp
      have hA : ∀ p ∈ BT.absBT l, p.1 ≠ k :=
        fun p hp => ne_of_lt (hAlt2 p hp)
      refine ⟨?_, ?_, ho⟩
      · rw [BT.absBT, hnk]
        exact (aInsert_present hAlt2).symm
      · rw [hnk, aLookup_at hA]
        rfl
    · -- k < nk: insert on the left
      have hnk : k < nk := compare_gt_iff_gt.mp hc
      rcases ihl hsl ho.2.1 with ⟨habs, hfound, hok⟩
      rw [BT.doInsert, hc]
      simp only []
      have hB : ∀ p ∈ (nk, nv) :: BT.absBT r, k < p.1 := by
        intro p hp
        rcases List.mem_cons.mp hp with h1 | h2
        · rw [h1]
          exact hnk
        · exact hnk.trans (hBgt p h2)
      constructor
      · rw [BT.mkBalanced_abs hok ho.2.2, habs, NMTree.aInsert_append_left hB]
      constructor
      · rw [hfound, aLookup_append_of_right_none
          (fun p hp => ne_of_gt (hB p hp))]
      · exact BT.mkBalanced_sizeOk hok ho.2.2

theorem pullRightmost_spec {t : BT K V} (ho : BT.SizeOk t) (hne : t ≠ BT.nil) :
    ∃ km vm, (BT.pullRightmost t).2 = BT.mkNode BT.nil BT.nil km vm ∧
      BT.absBT (BT.pullRightmost t).1 ++ [(km, vm)] = BT.absBT t ∧
      BT.SizeOk (BT.pullRightmost t).1 := by
  induction t with
  | nil => exact absurd rfl hne
  | node k v sz l r ihl ihr =>
    rw [BT.SizeOk] at ho
    by_cases hr : r = BT.nil
    · refine ⟨k, v, ?_, ?_, ?_⟩
      · rw [BT.pullRightmost, if_neg (by simp [hr, BT.isNil])]
      · rw [BT.pullRightmost, if_neg (by simp [hr, BT.isNil])]
        simp only []
        rw [BT.absBT, hr, BT.absBT]
      · rw [BT.pullRightmost, if_neg (by simp [hr, BT.isNil])]
        simp only []
        exact ho.2.1
    · rcases ihr ho.2.2 hr with ⟨km, vm, hsucc, habs, hok⟩
      have hb : (BT.isNil r = false) := BT.isNil_false_iff.mpr hr
      refine ⟨km, vm, ?_, ?_, ?_⟩
      · rw [BT.pullRightmost, if_pos (by simp [hb])]
        exact hsucc
      · rw [BT.pullRightmost, if_pos (by simp [hb])]
        simp only []
        rw [BT.mkBalanced_abs ho.2.1 hok, BT.absBT]
        rw [List.append_assoc]
        simp only [List.cons_append]
        rw [habs]
      · rw [BT.pullRightmost, if_pos (by simp [hb])]
        simp only []
        exact BT.mkBalanced_sizeOk ho.2.1 hok

theorem pullLeftmost_spec {t : BT K V} (ho : BT.SizeOk t) (hne : t ≠ BT.nil) :
    ∃ km vm, (BT.pullLeftmost t).2 = BT.mkNode BT.nil BT.nil km vm ∧
      (km, vm) :: BT.absBT (BT.pullLeftmost t).1 = BT.absBT t ∧
      BT.SizeOk (BT.pullLeftmost t).1 := by
  induction t with
  | nil => exact absurd rfl hne
  | node k v sz l r ihl ihr =>
    rw [BT.SizeOk] at ho
    by_cases hl : l = BT.nil
    · refine ⟨k, v, ?_, ?_, ?_⟩
      · rw [BT.pullLeftmost, if_neg (by simp [hl, BT.isNil])]
      · rw [BT.pullLeftmost, if_neg (by simp [hl, BT.isNil])]
        simp only []
        rw [BT.absBT, hl, BT.absBT]
        simp
      · rw [BT.pullLeftmost, if_neg (by simp [hl, BT.isNil])]
        simp only []
        exact ho.2.2
    · rcases ihl ho.2.1 hl with ⟨km, vm, hsucc, habs, hok⟩
      have hb : (BT.isNil l = false) := BT.isNil_false_iff.mpr hl
      refine ⟨km, vm, ?_, ?_, ?_⟩
      · rw [BT.pullLeftmost, if_pos (by simp [hb])]
        exact hsucc
      · rw [BT.pullLeftmost, if_pos (by simp [hb])]
        simp only []
        rw [BT.mkBalanced_abs hok ho.2.2, BT.absBT, ← habs]
        simp
      · rw [BT.pullLeftmost, if_pos (by simp [hb])]
        simp only []
        exact BT.mkBalanced_sizeOk hok ho.2.2

theorem doRemove_spec {k : K} :
    ∀ {t : BT K V}, ASorted (BT.absBT t) → BT.SizeOk t →
      BT.absBT (BT.doRemove k t).1 = aRemove k (BT.absBT t) ∧
      (BT.doRemove k t).2.1 = (aLookup k (BT.absBT t)).isSome ∧
      (BT.doRemove k t).2.2 = aLookup k (BT.absBT t) ∧
      BT.SizeOk (BT.doRemove k t).1 := by
  intro t
  induction t with
  | nil =>
    intro _ _
    exact ⟨rfl, rfl, rfl, trivial⟩
  | node nk nv sz l r ihl ihr =>
    intro hs ho
    rw [BT.absBT] at hs ⊢
    rcases sorted_split hs with ⟨hsl, hsr, hAlt, hBgt⟩
    rw [BT.SizeOk] at ho
    rcases hc : compare nk k with _ | _ | _
    · -- nk < k: remove on the right
      have hnk : nk < k := compare_lt_iff_lt.mp hc
      rcases ihr hsr ho.2.2 with ⟨habs, hfound, hval, hok⟩
      rw [BT.doRemove, hc]
      simp only []
      have hA : ∀ p ∈ BT.absBT l ++ [(nk, nv)], p.1 ≠ k := by
        intro p hp
        rcases List.mem_append.mp hp with h1 | h2
        · exact ne_of_lt ((hAlt p h1).trans hnk)
        · simp at h2
          rw [h2]
          exact ne_of_lt hnk
      have hrem := aRemove_append_right (B := BT.absBT r) hA
      rw [List.append_assoc] at hrem
      simp only [List.singleton_append] at hrem
      have hlook := aLookup_append_right (B := BT.absBT r) hA
      rw [List.append_assoc] at hlook
      simp only [List.singleton_append] at hlook
      refine ⟨?_, ?_, ?_, ?_⟩
      · rw [BT.mkBalanced_abs ho.2.1 hok, habs, hrem]
        simp
      · rw [hfound, hlook]
      · rw [hval, hlook]
      · exact BT.mkBalanced_sizeOk ho.2.1 hok
    · -- nk = k: the removal point
      have hnk : nk = k := compare_eq_iff_eq.mp hc
      rw [BT.doRemove, hc]
      simp only []
      have hA : ∀ p ∈ BT.absBT l, p.1 ≠ k := fun p hp =>
        ne_of_lt (by rw [← hnk]; exact hAlt p hp)
      have hrem : aRemove k (BT.absBT l ++ (nk, nv) :: BT.absBT r)
          = BT.absBT l ++ BT.absBT r := by
        rw [hnk]
        exact aRemove_at hA
      have hlook : aLookup k (BT.absBT l ++ (nk, nv) :: BT.absBT r)
          = some nv := by
        rw [hnk]
        exact aLookup_at hA
      by_cases hsz : sz = 1
      · rw [if_pos hsz]
        have hl0 : l = BT.nil := BT.sizeOk_nil_of ho.2.1 (by omega)
        have hr0 : r = BT.nil := BT.sizeOk_nil_of ho.2.2 (by omega)
        rw [hrem, hlook, hl0, hr0]
        exact ⟨rfl, rfl, rfl, trivial⟩
      · rw [if_neg hsz]
        by_cases hlnil : l = BT.nil
        · have hrne : r ≠ BT.nil := by
            intro hre
            rw [hlnil, hre] at ho
            have := ho.1
            rw [BT.nodeSize] at this
            omega
          rw [if_neg (by simp [hlnil, BT.isNil])]
          simp only []
          rcases pullLeftmost_spec ho.2.2 hrne with ⟨km, vm, hsucc, habs, hok⟩
          rw [hsucc, BT.mkNode]
          refine ⟨?_, ?_, ?_, ?_⟩
          · rw [BT.mkBalanced_abs (l := l) (by rw [hlnil]; trivial) hok,
              hrem, hlnil, BT.absBT, habs]
          · rw [hlook]
            rfl
          · rw [hlook]
          · exact BT.mkBalanced_sizeOk (by rw [hlnil]; trivial) hok
        · rw [if_pos (by simp [BT.isNil_false_iff.mpr hlnil])]
          simp only []
          rcases pullRightmost_spec ho.2.1 hlnil with ⟨km, vm, hsucc, habs, hok⟩
          rw [hsucc, BT.mkNode]
          refine ⟨?_, ?_, ?_, ?_⟩
          · rw [BT.mkBalanced_abs hok ho.2.2, hrem, ← habs]
            simp
          · rw [hlook]
            rfl
          · rw [hlook]
          · exact BT.mkBalanced_sizeOk hok ho.2.2
    · -- k < nk: remove on the left
      have hnk : k < nk := compare_gt_iff_gt.mp hc
      rcases ihl hsl ho.2.1 with ⟨habs, hfound, hval, hok⟩
      rw [BT.doRemove, hc]
      simp only []
      have hB : ∀ p ∈ (nk, nv) :: BT.absBT r, p.1 ≠ k := by
        intro p hp
        rcases List.mem_cons.mp hp with h1 | h2
        · rw [h1]
          exact ne_of_gt hnk
        · exact ne_of_gt (hnk.trans (hBgt p h2))
      refine ⟨?_, ?_, ?_, ?_⟩
      · rw [BT.mkBalanced_abs hok ho.2.2, habs,
          NMTree.aRemove_append_left hB]
      · rw [hfound, aLookup_append_of_right_none hB]
      · rw [hval, aLookup_append_of_right_none hB]
      · exact BT.mkBalanced_sizeOk hok ho.2.2

theorem bGet_spec {k : K} :
    ∀ {t : BT K V}, ASorted (BT.absBT t) →
      BT.bGet t k = ((aLookup k (BT.absBT t)).isSome,
        aLookup k (BT.absBT t)) := by
  intro t
  induction t with
  | nil => intro _; rfl
  | node nk nv sz l r ihl ihr =>
    intro hs
    rw [BT.absBT] at hs ⊢
    rcases sorted_split hs with ⟨hsl, hsr, hAlt, hBgt⟩
    rcases hc : compare k nk with _ | _ | _
    · -- k < nk: descend left
      have hnk : k < nk := compare_lt_iff_lt.mp hc
      have hB : ∀ p ∈ (nk, nv) :: BT.absBT r, p.1 ≠ k := by
        intro p hp
        rcases List.mem_cons.mp hp with h1 | h2
        · rw [h1]
          exact ne_of_gt hnk
        · exact ne_of_gt (hnk.trans (hBgt p h2))
      rw [BT.bGet, hc, aLookup_append_of_right_none hB]
      exact ihl hsl
    · -- k = nk: found here
      have hnk : k = nk := compare_eq_iff_eq.mp hc
      have hA : ∀ p ∈ BT.absBT l, p.1 ≠ k := fun p hp =>
        ne_of_lt (by rw [hnk]; exact hAlt p hp)
      rw [BT.bGet, hc, show nk = k from hnk.symm, aLookup_at hA]
      rfl
    · -- nk < k: descend right
      have hnk : nk < k := compare_gt_iff_gt.mp hc
      have hA : ∀ p ∈ BT.absBT l ++ [(nk, nv)], p.1 ≠ k := by
        intro p hp
        rcases List.mem_append.mp hp with h1 | h2
        · exact ne_of_lt ((hAlt p h1).trans hnk)
        · simp at h2
          rw [h2]
          exact ne_of_lt hnk
      have hlook := aLookup_append_right (B := BT.absBT r) hA
      rw [List.append_assoc] at hlook
      simp only [List.singleton_append] at hlook
      rw [BT.bGet, hc, hlook]
      exact ihr hsr

end BTSpec

end BT

/-! ## Lemmas: the sequential driver refines the abstract map -/

section DriverLemmas

variable [LinearOrder K] [DecidableEq V]

/-- Effect of one operation on the abstract (sorted association list)
state. -/
def aStep (L : List (K × V)) : MapOp K V → List (K × V)
  | .get _ => L
  | .insert k v => aInsert k v L
  | .remove k => aRemove k L

theorem aStep_sorted {L : List (K × V)} (hs : ASorted L) (op : MapOp K V) :
    ASorted (aStep L op) := by
  cases op with
  | get k => exact hs
  | insert k v => exact aInsert_sorted hs
  | remove k => exact aRemove_sorted hs

theorem aStep_keep {L : List (K × V)} {k : K} {v : V} (hs : ASorted L)
    (hv : aLookup k L = some v) (op : MapOp K V) (hop : op ≠ .remove k) :
    aLookup k (aStep L op) = some v := by
  cases op with
  | get q => exact hv
  | insert q w =>
    by_cases hq : q = k
    · subst hq
      rw [aStep, BT.aInsert_lookup_present hs hv]
      exact hv
    · rw [aStep, aLookup_aInsert_other (fun he => hq he.symm)]
      exact hv
  | remove q =>
    have hq : q ≠ k := fun he => hop (by rw [he])
    rw [aStep, aLookup_aRemove_other (fun he => hq he.symm)]
    exact hv

theorem aFold_sorted {L : List (K × V)} (hs : ASorted L) :
    ∀ (ops : List (MapOp K V)), ASorted (ops.foldl aStep L) := by
  intro ops
  induction ops generalizing L with
  | nil => exact hs
  | cons op ops ih => exact ih (aStep_sorted hs op)

theorem aFold_keep {k : K} {v : V} :
    ∀ (more : List (MapOp K V)) {L : List (K × V)}, ASorted L →
      aLookup k L = some v → (∀ op ∈ more, op ≠ .remove k) →
      aLookup k (more.foldl aStep L) = some v := by
  intro more
  induction more with
  | nil =>
    intro L _ hv _
    exact hv
  | cons op ops ih =>
    intro L hs hv hmore
    rw [List.foldl_cons]
    exact ih (aStep_sorted hs op)
      (aStep_keep hs hv op (hmore op (by simp)))
      (fun q hq => hmore q (by simp [hq]))

/-- Generic refinement transport along a run of operations. -/
theorem run_abs {σ : Type} (step : σ → MapOp K V → σ) (Inv : σ → Prop)
    (abs : σ → List (K × V))
    (hstep : ∀ s op, Inv s →
      Inv (step s op) ∧ abs (step s op) = aStep (abs s) op) :
    ∀ (ops : List (MapOp K V)) (s : σ), Inv s →
      Inv (ops.foldl step s) ∧
        abs (ops.foldl step s) = ops.foldl aStep (abs s) := by
  intro ops
  induction ops with
  | nil =>
    intro s h
    exact ⟨h, rfl⟩
  | cons op ops ih =>
    intro s h
    rcases hstep s op h with ⟨h1, h2⟩
    rw [List.foldl_cons, List.foldl_cons]
    rcases ih (step s op) h1 with ⟨h3, h4⟩
    rw [h4, h2]
    exact ⟨h3, rfl⟩

theorem stepHL_abs (l : List (LNode K V)) (op : MapOp K V) (h : InvL l) :
    InvL (stepHL l op) ∧ absL (stepHL l op) = aStep (absL l) op := by
  cases op with
  | get k =>
    rw [stepHL, harrisGet_spec h]
    exact ⟨h, rfl⟩
  | insert k v =>
    rcases hLook : aLookup k (absL l) with _ | w
    · rw [stepHL, harrisInsert_absent h hLook]
      exact ⟨invL_insAt h hLook, absL_insAt h hLook⟩
    · rw [stepHL, harrisInsert_present h hLook]
      refine ⟨h, ?_⟩
      rw [aStep, BT.aInsert_lookup_present h.2 hLook]
  | remove k =>
    rcases hLook : aLookup k (absL l) with _ | w
    · rw [stepHL, harrisRemove_absent h hLook]
      refine ⟨h, ?_⟩
      rw [aStep, aRemove_absent hLook]
    · rw [stepHL, harrisRemove_present h hLook]
      exact ⟨invL_remAt h hLook, absL_remAt h hLook⟩

theorem stepHM_abs (l : List (LNode K V)) (op : MapOp K V) (h : InvL l) :
    InvL (stepHM l op) ∧ absL (stepHM l op) = aStep (absL l) op := by
  cases op with
  | get k =>
    rw [stepHM, hmGet_spec h]
    exact ⟨h, rfl⟩
  | insert k v =>
    rcases hLook : aLookup k (absL l) with _ | w
    · rw [stepHM, hmInsert_absent h hLook]
      exact ⟨invL_insAt h hLook, absL_insAt h hLook⟩
    · rw [stepHM, hmInsert_present h hLook]
      refine ⟨h, ?_⟩
      rw [aStep, BT.aInsert_lookup_present h.2 hLook]
  | remove k =>
    rcases hLook : aLookup k (absL l) with _ | w
    · rw [stepHM, hmRemove_absent h hLook]
      refine ⟨h, ?_⟩
      rw [aStep, aRemove_absent hLook]
    · rw [stepHM, hmRemove_present h hLook]
      exact ⟨invL_remAt h hLook, absL_remAt h hLook⟩

theorem stepHHS_abs (l : List (LNode K V)) (op : MapOp K V) (h : InvL l) :
    InvL (stepHHS l op) ∧ absL (stepHHS l op) = aStep (absL l) op := by
  cases op with
  | get k =>
    rw [stepHHS, hhsGet_spec h]
    exact ⟨h, rfl⟩
  | insert k v =>
    rcases hLook : aLookup k (absL l) with _ | w
    · rw [stepHHS, harrisInsert_absent h hLook]
      exact ⟨invL_insAt h hLook, absL_insAt h hLook⟩
    · rw [stepHHS, harrisInsert_present h hLook]
      refine ⟨h, ?_⟩
      rw [aStep, BT.aInsert_lookup_present h.2 hLook]
  | remove k =>
    rcases hLook : aLookup k (absL l) with _ | w
    · rw [stepHHS, harrisRemove_absent h hLook]
      refine ⟨h, ?_⟩
      rw [aStep, aRemove_absent hLook]
    · rw [stepHHS, harrisRemove_present h hLook]
      exact ⟨invL_remAt h hLook, absL_remAt h hLook⟩

theorem runHL_abs (ops : List (MapOp K V)) :
    InvL (runHL ops) ∧ absL (runHL ops) = ops.foldl aStep [] :=
  run_abs stepHL InvL absL (fun s op h => stepHL_abs s op h) ops []
    ⟨fun n hn => absurd hn (List.not_mem_nil n), List.Pairwise.nil⟩

theorem runHM_abs (ops : List (MapOp K V)) :
    InvL (runHM ops) ∧ absL (runHM ops) = ops.foldl aStep [] :=
  run_abs stepHM InvL absL (fun s op h => stepHM_abs s op h) ops []
    ⟨fun n hn => absurd hn (List.not_mem_nil n), List.Pairwise.nil⟩

theorem runHHS_abs (ops : List (MapOp K V)) :
    InvL (runHHS ops) ∧ absL (runHHS ops) = ops.foldl aStep [] :=
  run_abs stepHHS InvL absL (fun s op h => stepHHS_abs s op h) ops []
    ⟨fun n hn => absurd hn (List.not_mem_nil n), List.Pairwise.nil⟩

theorem stepNM_abs (t : NMTree K V) (op : MapOp K V) (h : NMTree.NMReach t) :
    NMTree.NMReach (stepNM t op) ∧
      NMTree.absNM (stepNM t op) = aStep (NMTree.absNM t) op := by
  rcases h with ⟨⟨sub, hshape, hrinv⟩, hinv⟩
  cases op with
  | get k => exact ⟨⟨⟨sub, hshape, hrinv⟩, hinv⟩, rfl⟩
  | insert k v =>
    rcases hLook : aLookup k (NMTree.absNM t) with _ | w
    · rcases NMTree.nmInsertAux_absent (v := v) hinv hLook with
        ⟨t2, heq, hinv2, habs2⟩
      rw [stepNM, NMTree.nmInsert, heq]
      refine ⟨⟨?_, hinv2⟩, habs2⟩
      rw [hshape] at heq
      rw [NMTree.nmInsertAux] at heq
      rw [if_pos (show nmKeyCmpK (NMKey.inf : NMKey K) k = .gt
        from rfl)] at heq
      rcases hx : NMTree.nmInsertAux k v sub with _ | sub2
      · rw [hx] at heq
        simp at heq
      · rw [hx] at heq
        simp at heq
        exact ⟨sub2, heq.symm, NMTree.rinv_insert hrinv hx⟩
    · have hnone := NMTree.nmInsertAux_present (v := v) hinv
        (by rw [hLook]; rfl)
      rw [stepNM, NMTree.nmInsert, hnone]
      refine ⟨⟨⟨sub, hshape, hrinv⟩, hinv⟩, ?_⟩
      rw [aStep, BT.aInsert_lookup_present (NMTree.absNM_sorted hinv) hLook]
  | remove k =>
    have hint : NMTree.IsInternal t := by
      rw [hshape, NMTree.IsInternal]
      trivial
    rcases hLook : aLookup k (NMTree.absNM t) with _ | w
    · rw [stepNM, NMTree.nmRemove, NMTree.nmRemoveAux_absent hinv hint hLook]
      refine ⟨⟨⟨sub, hshape, hrinv⟩, hinv⟩, ?_⟩
      rw [aStep, aRemove_absent hLook]
    · rcases NMTree.nmRemoveAux_present hinv hint hLook with
        ⟨t2, heq, hinv2, habs2⟩
      rw [stepNM, NMTree.nmRemove, heq]
      refine ⟨⟨?_, hinv2⟩, habs2⟩
      rw [hshape] at heq
      rw [NMTree.nmRemoveAux.eq_def] at heq
      simp only [] at heq
      rw [if_pos (show nmKeyCmpK (NMKey.inf : NMKey K) k = .gt
        from rfl)] at heq
      cases sub with
      | leaf kk vv =>
        rw [NMTree.RInv] at hrinv
        subst hrinv
        simp only [] at heq
        have hgt : nmKeyCmpK (NMKey.inf : NMKey K) k = .gt := rfl
        rw [if_neg (by rw [hgt]; simp)] at heq
        exact Option.noConfusion heq
      | internal a b c =>
        simp only [] at heq
        rcases hx : NMTree.nmRemoveAux k (NMTree.internal a b c) with
          _ | ⟨sub2, w2⟩
        · rw [hx] at heq
          simp at heq
        · rw [hx] at heq
          simp at heq
          exact ⟨sub2, heq.1.symm, NMTree.rinv_remove hrinv hx⟩

/-- Invariant of sequentially reachable Bonsai states. -/
def BTInv (t : BT K V) : Prop := ASorted (BT.absBT t) ∧ BT.SizeOk t

theorem stepBT_abs (t : BT K V) (op : MapOp K V) (h : BTInv t) :
    BTInv (stepBT t op) ∧ BT.absBT (stepBT t op) = aStep (BT.absBT t) op := by
  cases op with
  | get k => exact ⟨h, rfl⟩
  | insert k v =>
    rcases BT.doInsert_spec (k := k) (v := v) h.1 h.2 with ⟨habs, _, hok⟩
    rw [stepBT, BT.bInsert]
    refine ⟨⟨?_, hok⟩, habs⟩
    rw [habs]
    exact aInsert_sorted h.1
  | remove k =>
    rcases BT.doRemove_spec (k := k) h.1 h.2 with ⟨habs, _, _, hok⟩
    rw [stepBT, BT.bRemove]
    refine ⟨⟨?_, hok⟩, habs⟩
    rw [habs]
    exact aRemove_sorted h.1

theorem runNM_abs (ops : List (MapOp K V)) :
    NMTree.NMReach (runNM ops) ∧
      NMTree.absNM (runNM ops) = ops.foldl aStep [] := by
  have h := run_abs stepNM NMTree.NMReach NMTree.absNM
    (fun s op hh => stepNM_abs s op hh) ops NMTree.nmNew NMTree.nmNew_reach
  rw [NMTree.nmNew_abs] at h
  exact h

theorem runBT_abs (ops : List (MapOp K V)) :
    BTInv (runBT ops) ∧ BT.absBT (runBT ops) = ops.foldl aStep [] :=
  run_abs stepBT BTInv BT.absBT (fun s op hh => stepBT_abs s op hh) ops
    BT.nil ⟨List.Pairwise.nil, trivial⟩

end DriverLemmas

/-! ## The weight-balance predicate of the specification -/

namespace BT

/-- The claimed Bonsai balance invariant: at every internal node with child
subtree sizes `l`, `r`, neither exceeds `WEIGHT * max (other, 1)`. -/
def BalancedW : BT K V → Prop
  | nil => True
  | node _ _ _ l r =>
      nodeSize l ≤ WEIGHT * max (nodeSize r) 1 ∧
      nodeSize r ≤ WEIGHT * max (nodeSize l) 1 ∧
      BalancedW l ∧ BalancedW r

instance decBalancedW : (t : BT K V) → Decidable (BalancedW t)
  | .nil => .isTrue trivial
  | .node k v sz l r => by
      haveI := decBalancedW l
      haveI := decBalancedW r
      rw [BalancedW]
      infer_instance

end BT

section MoreHelpers

variable [LinearOrder K]

theorem dropWhile_append_all {p : LNode K V → Bool} :
    ∀ {l1 : List (LNode K V)} (l2 : List (LNode K V)),
      (∀ m ∈ l1, p m = true) →
      (l1 ++ l2).dropWhile p = l2.dropWhile p := by
  intro l1
  induction l1 with
  | nil => intro l2 _; rfl
  | cons m tl ih =>
    intro l2 h
    rw [List.cons_append, List.dropWhile_cons,
      if_pos (by simp [h m (List.mem_cons_self m tl)])]
    exact ih l2 (fun q hq => h q (by simp [hq]))

end MoreHelpers

namespace NMTree

/-- The installation point of `NMTreeMap::insert`: replace the leaf at the
end of the seek path (the `parent.<leaf_dir>` edge CAS). -/
def replaceLeaf [LinearOrder K] (k : K) (sub : NMTree K V) :
    NMTree K V → NMTree K V
  | .leaf _ _ => sub
  | .internal kk l r =>
    if nmKeyCmpK kk k = .gt then .internal kk (replaceLeaf k sub l) r
    else .internal kk l (replaceLeaf k sub r)

/-- The internal node `NMTreeMap::insert` builds around the old leaf `lf`
and the fresh leaf (`natarajan_mittal_tree.rs:402-428`): `Greater` puts the
new leaf on the left under the old leaf's key; `Less` puts it on the right
under the new key. -/
def newInternal [LinearOrder K] (lf : NMTree K V) (k : K) (v : V) :
    NMTree K V :=
  if nmKeyCmpK lf.rootKey k = .gt
  then .internal lf.rootKey (.leaf (.fin k) (some v)) lf
  else .internal (.fin k) lf (.leaf (.fin k) (some v))

end NMTree

section FinalHelpers

variable [LinearOrder K] [DecidableEq V]

theorem replicate_get? {α : Type} (a : α) :
    ∀ (n m : Nat), m < n → (List.replicate n a).get? m = some a := by
  intro n
  induction n with
  | zero => intro m hm; omega
  | succ n ih =>
    intro m hm
    cases m with
    | zero => rfl
    | succ m =>
      rw [List.replicate_succ]
      exact ih m (by omega)

/-- An inserted binding survives any further operations that do not remove
its key, and the structure's invariant is maintained. -/
theorem lookup_after_ops {σ : Type} (step : σ → MapOp K V → σ)
    (Inv : σ → Prop) (abs : σ → List (K × V))
    (hstep : ∀ s op, Inv s →
      Inv (step s op) ∧ abs (step s op) = aStep (abs s) op)
    (hsort : ∀ s, Inv s → ASorted (abs s))
    (more : List (MapOp K V)) (s : σ) (hInv : Inv s) (k : K) (v : V)
    (hv : aLookup k (abs s) = some v)
    (hmore : ∀ op ∈ more, op ≠ MapOp.remove k) :
    Inv (more.foldl step s) ∧
      aLookup k (abs (more.foldl step s)) = some v := by
  rcases run_abs step Inv abs hstep more s hInv with ⟨h1, h2⟩
  refine ⟨h1, ?_⟩
  rw [h2]
  exact aFold_keep more (hsort s hInv) hv hmore

end FinalHelpers

namespace NMTree

section InsertShape

variable [LinearOrder K]

/-- `insert` returns false exactly when the seek path ends at a leaf whose
key equals the inserted key. -/
theorem nmInsertAux_none_iff {k : K} {v : V} :
    ∀ {t : NMTree K V}, nmInsertAux k v t = none ↔
      nmKeyCmpK (seekLeaf k t).rootKey k = .eq := by
  intro t
  induction t with
  | leaf kk vv =>
    simp only [seekLeaf, rootKey]
    rcases hc : nmKeyCmpK kk k with _ | _ | _ <;>
      simp [nmInsertAux, hc]
  | internal kk l r ihl ihr =>
    rw [nmInsertAux, seekLeaf]
    by_cases hdir : nmKeyCmpK kk k = .gt
    · rw [if_pos hdir, if_pos hdir, Option.map_eq_none', ihl]
    · rw [if_neg hdir, if_neg hdir, Option.map_eq_none', ihr]

/-- When the reached leaf's key differs, the tree `insert` installs is the
original with that leaf replaced by the new internal node built from the old
leaf and the fresh leaf. -/
theorem nmInsertAux_replaceLeaf {k : K} {v : V} :
    ∀ {t : NMTree K V}, nmKeyCmpK (seekLeaf k t).rootKey k ≠ .eq →
      nmInsertAux k v t =
        some (replaceLeaf k (newInternal (seekLeaf k t) k v) t) := by
  intro t
  induction t with
  | leaf kk vv =>
    intro hne
    simp only [seekLeaf, rootKey] at hne ⊢
    rw [replaceLeaf, newInternal]
    simp only [rootKey]
    rcases hc : nmKeyCmpK kk k with _ | _ | _
    · rw [nmInsertAux, hc, if_neg (by simp)]
    · exact absurd hc hne
    · rw [nmInsertAux, hc, if_pos rfl]
  | internal kk l r ihl ihr =>
    intro hne
    rw [seekLeaf] at hne ⊢
    rw [nmInsertAux, replaceLeaf]
    by_cases hdir : nmKeyCmpK kk k = .gt
    · rw [if_pos hdir] at hne
      rw [if_pos hdir, if_pos hdir, ihl hne, if_pos hdir]
      rfl
    · rw [if_neg hdir] at hne
      rw [if_neg hdir, if_neg hdir, ihr hne, if_neg hdir]
      rfl

end InsertShape

end NMTree

/-! ## The claims -/

/-- A concrete traversal window: 10 consecutively marked nodes between two
live nodes. -/
def chainC4 : List (LNode Nat Nat) :=
  ⟨0, 0, false⟩ :: ((List.range 10).map fun i => ⟨i + 1, i + 1, true⟩)
    ++ [⟨11, 11, false⟩]

/-- C4: in `find_harris`, when the traversal loop terminates with a non-null
anchor installed (a nonempty marked run behind `curr`), the single CAS on
`anchor.next` — whose expected pointer is the head of the run and whose new
pointer is the untagged `curr`, with the retry error on failure built into
`findHarris` — succeeds against the un-interfered list and unlinks the whole
run: the result is `kept ++ rest` with the run gone, the run consists
entirely of marked nodes, and the original list decomposes as
`kept ++ run ++ rest`.  In particular, a chain of 10 consecutively marked
nodes is unlinked by the single anchor CAS. -/
theorem claim_C4 {K V : Type} [LinearOrder K] [DecidableEq V] :
    (∀ (l : List (LNode K V)) (k : K),
        (findHarrisLoop k [] [] l).run ≠ [] →
        findHarris k l = Except.ok
            ((findHarrisLoop k [] [] l).kept ++ (findHarrisLoop k [] [] l).rest,
              (findHarrisLoop k [] [] l).found,
              (findHarrisLoop k [] [] l).kept.length) ∧
          l = (findHarrisLoop k [] [] l).kept ++ (findHarrisLoop k [] [] l).run
              ++ (findHarrisLoop k [] [] l).rest ∧
          (∀ n ∈ (findHarrisLoop k [] [] l).run, n.marked = true)) ∧
    ((findHarrisLoop 11 [] [] chainC4).run.length = 10 ∧
      findHarris 11 chainC4 =
        Except.ok ([⟨0, 0, false⟩, ⟨11, 11, false⟩], true, 1)) := by
  constructor
  · intro l k _
    refine ⟨findHarris_ok, ?_, findHarrisLoop_run_marked l [] [] (by simp)⟩
    have h := findHarrisLoop_decomp (k := k) l [] []
    simpa using h.symm
  · exact ⟨rfl, rfl⟩

/-- Witness for C4: the 10-node marked chain satisfies the anchor-installed
hypothesis, and the general theorem applies to it. -/
theorem claim_C4_witness :
    findHarris 11 chainC4 = Except.ok
        ((findHarrisLoop 11 [] [] chainC4).kept
            ++ (findHarrisLoop 11 [] [] chainC4).rest,
          (findHarrisLoop 11 [] [] chainC4).found,
          (findHarrisLoop 11 [] [] chainC4).kept.length) ∧
      chainC4 = (findHarrisLoop 11 [] [] chainC4).kept
          ++ (findHarrisLoop 11 [] [] chainC4).run
          ++ (findHarrisLoop 11 [] [] chainC4).rest ∧
      (∀ n ∈ (findHarrisLoop 11 [] [] chainC4).run, n.marked = true) :=
  claim_C4.1 chainC4 11 (by decide)

/-- C6: `find_harris_herlihy_shavit` never modifies the list (`get` returns
the state unchanged, and the traversal is a pure function of it), advances
past smaller-keyed nodes ignoring their tags, and when it stops at a node
whose key equals the searched key it returns `found = tag(next) == 0`, i.e.
the negation of the mark; hence on a list whose only `k`-keyed nodes are
logically deleted, `get(k)` is false. -/
theorem claim_C6 {K V : Type} [LinearOrder K] [DecidableEq V] :
    (∀ (l : List (LNode K V)) (k : K), hhsGet l k = (l, findHHS k l)) ∧
    (∀ (l1 l2 : List (LNode K V)) (n : LNode K V) (k : K),
        (∀ m ∈ l1, m.key < k) → n.key = k →
        findHHS k (l1 ++ n :: l2) =
          (!n.marked, if n.marked then none else some n.value)) ∧
    (∀ (l : List (LNode K V)) (k : K),
        (∀ n ∈ l, n.key = k → n.marked = true) → (findHHS k l).1 = false) := by
  refine ⟨fun l k => rfl, ?_, ?_⟩
  · intro l1 l2 n k h1 hk
    have hall : ∀ m ∈ l1, pkLt k m = true := by
      intro m hm
      simp only [pkLt, decide_eq_true_eq]
      exact compare_lt_iff_lt.mpr (h1 m hm)
    have hceq : compare n.key k = Ordering.eq := compare_eq_iff_eq.mpr hk
    have hpn : pkLt k n = false := by
      simp only [pkLt, decide_eq_false_iff_not]
      rw [hceq]
      simp
    rw [findHHS_dropWhile, dropWhile_append_all (n :: l2) hall,
      List.dropWhile_cons, if_neg (by simp [hpn])]
    simp [hhsStop, hceq]
  · intro l k h
    rw [findHHS_dropWhile]
    rcases hd : l.dropWhile (pkLt k) with _ | ⟨m, tl⟩
    · rfl
    · have hmem : m ∈ l := by
        have : m ∈ l.takeWhile (pkLt k) ++ l.dropWhile (pkLt k) :=
          List.mem_append.mpr (Or.inr (by rw [hd]; simp))
        rwa [List.takeWhile_append_dropWhile] at this
      rcases hc : compare m.key k with _ | _ | _
      · exact absurd (dropWhile_cons_false hd) (by simp [pkLt, hc])
      · have hmk := h m hmem (compare_eq_iff_eq.mp hc)
        simp [hhsStop, hc, hmk]
      · simp [hhsStop, hc]

/-- Witness for C6: a logically deleted node with the searched key is
reached ignoring its tag and reported not found. -/
theorem claim_C6_witness :
    findHHS 5 ([⟨1, 10, false⟩] ++ (⟨5, 7, true⟩ : LNode Nat Nat)
        :: [⟨9, 9, false⟩]) = (false, none) ∧
      (findHHS 5 ([⟨5, 7, true⟩] : List (LNode Nat Nat))).1 = false := by
  constructor
  · have h := claim_C6.2.1 [⟨1, 10, false⟩] [⟨9, 9, false⟩]
      (⟨5, 7, true⟩ : LNode Nat Nat) 5 (by decide) rfl
    simpa using h
  · exact claim_C6.2.2 _ 5 (by decide)

/-- C8: the node built by `mk_node` stores `size = 1 + size(left) +
size(right)` (null subtrees counting 0); every tree reachable by a sequence
of sequential operations from the empty tree satisfies this at every node
(`SizeOk`); and under `SizeOk` the stored size is exactly the subtree's node
count. -/
theorem claim_C8 {K V : Type} [LinearOrder K] [DecidableEq V] :
    (∀ (l r : BT K V) (k : K) (v : V),
        BT.nodeSize (BT.mkNode l r k v) =
          1 + BT.nodeSize l + BT.nodeSize r) ∧
    (∀ ops : List (MapOp K V), BT.SizeOk (runBT ops)) ∧
    (∀ t : BT K V, BT.SizeOk t → BT.nodeSize t = BT.numNodes t) := by
  refine ⟨?_, ?_, ?_⟩
  · intro l r k v
    show BT.nodeSize l + BT.nodeSize r + 1 = 1 + BT.nodeSize l + BT.nodeSize r
    omega
  · intro ops
    exact (runBT_abs ops).1.2
  · intro t h
    exact BT.sizeOk_numNodes h

/-- Witness for C8: the size-equals-node-count consequence at a concrete
well-sized node. -/
theorem claim_C8_witness :
    BT.nodeSize (BT.node 3 5 1 (BT.nil : BT Nat Nat) BT.nil) =
      BT.numNodes (BT.node 3 5 1 (BT.nil : BT Nat Nat) BT.nil) :=
  claim_C8.2.2 (BT.node 3 5 1 BT.nil BT.nil) ⟨rfl, trivial, trivial⟩

/-- C9: `get_bucket` indexes the bucket vector at `index % len` without a
bounds check; for every bucket count `n ≥ 1` the position is defined and
strictly below `n`, so the unchecked access is in bounds — in particular for
the default 30000-bucket map of `ConcurrentMap::new`, where every index
reaches a bucket — while on a 0-capacity map the modulo is a division by
zero (modelled `none`), so every `get`/`insert`/`remove` faults. -/
theorem claim_C9 {K V : Type} [LinearOrder K] [DecidableEq V] :
    (∀ n i : Nat, 1 ≤ n →
        MichaelHashMap.getBucketIdx n i = some (i % n) ∧ i % n < n) ∧
    ((MichaelHashMap.hashNew : List (List (LNode K V))).length = 30000 ∧
      ∀ i : Nat, ∃ b,
        MichaelHashMap.getBucket
          (MichaelHashMap.hashNew : List (List (LNode K V))) i = some b) ∧
    (∀ (i : Nat) (k : K) (v : V),
        MichaelHashMap.hashGet
          (MichaelHashMap.withCapacity 0 : List (List (LNode K V))) i k
            = none ∧
        MichaelHashMap.hashInsert (MichaelHashMap.withCapacity 0) i k v
            = none ∧
        MichaelHashMap.hashRemove
          (MichaelHashMap.withCapacity 0 : List (List (LNode K V))) i k
            = none) := by
  refine ⟨?_, ⟨?_, ?_⟩, ?_⟩
  · intro n i h
    refine ⟨?_, Nat.mod_lt i (by omega)⟩
    rw [MichaelHashMap.getBucketIdx, if_neg (by omega)]
  · rw [MichaelHashMap.hashNew, MichaelHashMap.withCapacity,
      List.length_replicate]
  · intro i
    refine ⟨[], ?_⟩
    rw [MichaelHashMap.getBucket, MichaelHashMap.hashNew,
      MichaelHashMap.withCapacity, List.length_replicate,
      MichaelHashMap.getBucketIdx, if_neg (by omega)]
    exact replicate_get? [] 30000 (i % 30000) (Nat.mod_lt i (by omega))
  · intro i k v
    exact ⟨rfl, rfl, rfl⟩

/-- Witness for C9: the default bucket count with a concrete index. -/
theorem claim_C9_witness :
    MichaelHashMap.getBucketIdx 30000 123456 = some (123456 % 30000) ∧
      123456 % 30000 < 30000 :=
  (claim_C9 (K := Nat) (V := Nat)).1 30000 123456 (by decide)

/-- C1: for each of the five map implementations used sequentially from its
fresh state, `get(k)` returns true iff `k` is present, and on true the
holder exposes the stored value; and after an `insert(k,v)` that returns
true, `get(k)` returns true with value `v` after any further operations
that do not include a `remove(k)`. -/
theorem claim_C1 {K V : Type} [LinearOrder K] [DecidableEq V] :
    (∀ (ops : List (MapOp K V)) (k : K),
        ((harrisGet (runHL ops) k).2.1 = true ↔
          aLookup k (absL (runHL ops)) ≠ none) ∧
        (aLookup k (absL (runHL ops)) ≠ none →
          (harrisGet (runHL ops) k).2.2 = aLookup k (absL (runHL ops)))) ∧
    (∀ (ops more : List (MapOp K V)) (k : K) (v : V),
        (harrisInsert (runHL ops) k v).2 = true →
        (∀ op ∈ more, op ≠ MapOp.remove k) →
        (harrisGet (more.foldl stepHL (harrisInsert (runHL ops) k v).1)
            k).2.1 = true ∧
        (harrisGet (more.foldl stepHL (harrisInsert (runHL ops) k v).1)
            k).2.2 = some v) ∧
    (∀ (ops : List (MapOp K V)) (k : K),
        ((hmGet (runHM ops) k).2.1 = true ↔
          aLookup k (absL (runHM ops)) ≠ none) ∧
        (aLookup k (absL (runHM ops)) ≠ none →
          (hmGet (runHM ops) k).2.2 = aLookup k (absL (runHM ops)))) ∧
    (∀ (ops more : List (MapOp K V)) (k : K) (v : V),
        (hmInsert (runHM ops) k v).2 = true →
        (∀ op ∈ more, op ≠ MapOp.remove k) →
        (hmGet (more.foldl stepHM (hmInsert (runHM ops) k v).1) k).2.1
            = true ∧
        (hmGet (more.foldl stepHM (hmInsert (runHM ops) k v).1) k).2.2
            = some v) ∧
    (∀ (ops : List (MapOp K V)) (k : K),
        ((hhsGet (runHHS ops) k).2.1 = true ↔
          aLookup k (absL (runHHS ops)) ≠ none) ∧
        (aLookup k (absL (runHHS ops)) ≠ none →
          (hhsGet (runHHS ops) k).2.2 = aLookup k (absL (runHHS ops)))) ∧
    (∀ (ops more : List (MapOp K V)) (k : K) (v : V),
        (harrisInsert (runHHS ops) k v).2 = true →
        (∀ op ∈ more, op ≠ MapOp.remove k) →
        (hhsGet (more.foldl stepHHS (harrisInsert (runHHS ops) k v).1)
            k).2.1 = true ∧
        (hhsGet (more.foldl stepHHS (harrisInsert (runHHS ops) k v).1)
            k).2.2 = some v) ∧
    (∀ (ops : List (MapOp K V)) (k : K),
        ((NMTree.nmGet (runNM ops) k).1 = true ↔
          aLookup k (NMTree.absNM (runNM ops)) ≠ none) ∧
        (aLookup k (NMTree.absNM (runNM ops)) ≠ none →
          (NMTree.nmGet (runNM ops) k).2 =
            aLookup k (NMTree.absNM (runNM ops)))) ∧
    (∀ (ops more : List (MapOp K V)) (k : K) (v : V),
        (NMTree.nmInsert (runNM ops) k v).2 = true →
        (∀ op ∈ more, op ≠ MapOp.remove k) →
        (NMTree.nmGet (more.foldl stepNM
            (NMTree.nmInsert (runNM ops) k v).1) k).1 = true ∧
        (NMTree.nmGet (more.foldl stepNM
            (NMTree.nmInsert (runNM ops) k v).1) k).2 = some v) ∧
    (∀ (ops : List (MapOp K V)) (k : K),
        ((BT.bGet (runBT ops) k).1 = true ↔
          aLookup k (BT.absBT (runBT ops)) ≠ none) ∧
        (aLookup k (BT.absBT (runBT ops)) ≠ none →
          (BT.bGet (runBT ops) k).2 =
            aLookup k (BT.absBT (runBT ops)))) ∧
    (∀ (ops more : List (MapOp K V)) (k : K) (v : V),
        (BT.bInsert (runBT ops) k v).2 = true →
        (∀ op ∈ more, op ≠ MapOp.remove k) →
        (BT.bGet (more.foldl stepBT (BT.bInsert (runBT ops) k v).1)
            k).1 = true ∧
        (BT.bGet (more.foldl stepBT (BT.bInsert (runBT ops) k v).1)
            k).2 = some v) := by
  refine ⟨?_, ?_, ?_, ?_, ?_, ?_, ?_, ?_, ?_, ?_⟩
  · intro ops k
    rw [harrisGet_spec (runHL_abs ops).1]
    exact ⟨Option.isSome_iff_ne_none, fun _ => rfl⟩
  · intro ops more k v hins hmore
    rcases hLook : aLookup k (absL (runHL ops)) with _ | w
    · have hstep : (harrisInsert (runHL ops) k v).1 =
          stepHL (runHL ops) (MapOp.insert k v) := rfl
      rcases stepHL_abs (runHL ops) (MapOp.insert k v) (runHL_abs ops).1
        with ⟨hInv2, habs2⟩
      have hv : aLookup k (absL (stepHL (runHL ops) (MapOp.insert k v)))
          = some v := by
        rw [habs2]
        exact aLookup_aInsert_self hLook
      have h2 := lookup_after_ops stepHL InvL absL
        (fun s op h => stepHL_abs s op h) (fun s h => h.2) more _ hInv2
        k v hv hmore
      rw [hstep, harrisGet_spec h2.1, h2.2]
      exact ⟨rfl, rfl⟩
    · rw [harrisInsert_present (runHL_abs ops).1 hLook] at hins
      simp at hins
  · intro ops k
    rw [hmGet_spec (runHM_abs ops).1]
    exact ⟨Option.isSome_iff_ne_none, fun _ => rfl⟩
  · intro ops more k v hins hmore
    rcases hLook : aLookup k (absL (runHM ops)) with _ | w
    · have hstep : (hmInsert (runHM ops) k v).1 =
          stepHM (runHM ops) (MapOp.insert k v) := rfl
      rcases stepHM_abs (runHM ops) (MapOp.insert k v) (runHM_abs ops).1
        with ⟨hInv2, habs2⟩
      have hv : aLookup k (absL (stepHM (runHM ops) (MapOp.insert k v)))
          = some v := by
        rw [habs2]
        exact aLookup_aInsert_self hLook
      have h2 := lookup_after_ops stepHM InvL absL
        (fun s op h => stepHM_abs s op h) (fun s h => h.2) more _ hInv2
        k v hv hmore
      rw [hstep, hmGet_spec h2.1, h2.2]
      exact ⟨rfl, rfl⟩
    · rw [hmInsert_present (runHM_abs ops).1 hLook] at hins
      simp at hins
  · intro ops k
    rw [hhsGet_spec (runHHS_abs ops).1]
    exact ⟨Option.isSome_iff_ne_none, fun _ => rfl⟩
  · intro ops more k v hins hmore
    rcases hLook : aLookup k (absL (runHHS ops)) with _ | w
    · have hstep : (harrisInsert (runHHS ops) k v).1 =
          stepHHS (runHHS ops) (MapOp.insert k v) := rfl
      rcases stepHHS_abs (runHHS ops) (MapOp.insert k v) (runHHS_abs ops).1
        with ⟨hInv2, habs2⟩
      have hv : aLookup k (absL (stepHHS (runHHS ops) (MapOp.insert k v)))
          = some v := by
        rw [habs2]
        exact aLookup_aInsert_self hLook
      have h2 := lookup_after_ops stepHHS InvL absL
        (fun s op h => stepHHS_abs s op h) (fun s h => h.2) more _ hInv2
        k v hv hmore
      rw [hstep, hhsGet_spec h2.1, h2.2]
      exact ⟨rfl, rfl⟩
    · rw [harrisInsert_present (runHHS_abs ops).1 hLook] at hins
      simp at hins
  · intro ops k
    rcases NMTree.nmGet_spec (k := k) (runNM_abs ops).1.2 with ⟨hg1, hg2⟩
    constructor
    · rw [hg1]
      exact Option.isSome_iff_ne_none
    · intro hne
      rw [hg2 (Option.isSome_iff_ne_none.mpr hne)]
  · intro ops more k v hins hmore
    have hreach := (runNM_abs ops).1
    rcases hLook : aLookup k (NMTree.absNM (runNM ops)) with _ | w
    · have hstep : (NMTree.nmInsert (runNM ops) k v).1 =
          stepNM (runNM ops) (MapOp.insert k v) := rfl
      rcases stepNM_abs (runNM ops) (MapOp.insert k v) hreach
        with ⟨hreach2, habs2⟩
      have hv : aLookup k
          (NMTree.absNM (stepNM (runNM ops) (MapOp.insert k v)))
          = some v := by
        rw [habs2]
        exact aLookup_aInsert_self hLook
      have h2 := lookup_after_ops stepNM NMTree.NMReach NMTree.absNM
        (fun s op h => stepNM_abs s op h)
        (fun s h => NMTree.absNM_sorted h.2) more _ hreach2 k v hv hmore
      rw [hstep]
      rcases NMTree.nmGet_spec (k := k) h2.1.2 with ⟨hg1, hg2⟩
      constructor
      · rw [hg1, h2.2]
        rfl
      · rw [hg2 (by rw [h2.2]; rfl), h2.2]
    · have hnone := NMTree.nmInsertAux_present (v := v) hreach.2
        (by rw [hLook]; rfl)
      rw [NMTree.nmInsert, hnone] at hins
      simp at hins
  · intro ops k
    rw [BT.bGet_spec (runBT_abs ops).1.1]
    exact ⟨Option.isSome_iff_ne_none, fun _ => rfl⟩
  · intro ops more k v hins hmore
    have hbt := (runBT_abs ops).1
    rcases hLook : aLookup k (BT.absBT (runBT ops)) with _ | w
    · have hstep : (BT.bInsert (runBT ops) k v).1 =
          stepBT (runBT ops) (MapOp.insert k v) := rfl
      rcases stepBT_abs (runBT ops) (MapOp.insert k v) hbt
        with ⟨hbt2, habs2⟩
      have hv : aLookup k (BT.absBT (stepBT (runBT ops)
          (MapOp.insert k v))) = some v := by
        rw [habs2]
        exact aLookup_aInsert_self hLook
      have h2 := lookup_after_ops stepBT BTInv BT.absBT
        (fun s op h => stepBT_abs s op h) (fun s h => h.1) more _ hbt2
        k v hv hmore
      rw [hstep, BT.bGet_spec h2.1.1, h2.2]
      exact ⟨rfl, rfl⟩
    · rcases BT.doInsert_spec (k := k) (v := v) hbt.1 hbt.2
        with ⟨_, hret, _⟩
      rw [BT.bInsert, hret, hLook] at hins
      simp at hins

/-- Witness for C1: a concrete round trip through the Harris list — insert
2 ↦ 5 into the empty list, run an unrelated `get`, then `get 2` succeeds
with value 5. -/
theorem claim_C1_witness :
    (harrisGet (([MapOp.get 9] : List (MapOp Nat Nat)).foldl stepHL
        (harrisInsert (runHL ([] : List (MapOp Nat Nat))) 2 5).1) 2).2.1
        = true ∧
      (harrisGet (([MapOp.get 9] : List (MapOp Nat Nat)).foldl stepHL
        (harrisInsert (runHL ([] : List (MapOp Nat Nat))) 2 5).1) 2).2.2
        = some 5 :=
  claim_C1.2.1 [] [MapOp.get 9] 2 5 (by decide) (by decide)

/-- C2: for each of the five map implementations used sequentially,
inserting an already-present key returns false and leaves the observable
key-value content unchanged (the three lists and the NM tree return the
state itself; the Bonsai tree rebuilds its path but with unchanged
content), and removing an absent key returns false. -/
theorem claim_C2 {K V : Type} [LinearOrder K] [DecidableEq V] :
    (∀ (ops : List (MapOp K V)) (k : K) (v w : V),
        aLookup k (absL (runHL ops)) = some w →
        harrisInsert (runHL ops) k v = (runHL ops, false)) ∧
    (∀ (ops : List (MapOp K V)) (k : K),
        aLookup k (absL (runHL ops)) = none →
        harrisRemove (runHL ops) k = (runHL ops, false, none)) ∧
    (∀ (ops : List (MapOp K V)) (k : K) (v w : V),
        aLookup k (absL (runHM ops)) = some w →
        hmInsert (runHM ops) k v = (runHM ops, false)) ∧
    (∀ (ops : List (MapOp K V)) (k : K),
        aLookup k (absL (runHM ops)) = none →
        hmRemove (runHM ops) k = (runHM ops, false, none)) ∧
    (∀ (ops : List (MapOp K V)) (k : K) (v w : V),
        aLookup k (absL (runHHS ops)) = some w →
        harrisInsert (runHHS ops) k v = (runHHS ops, false)) ∧
    (∀ (ops : List (MapOp K V)) (k : K),
        aLookup k (absL (runHHS ops)) = none →
        harrisRemove (runHHS ops) k = (runHHS ops, false, none)) ∧
    (∀ (ops : List (MapOp K V)) (k : K) (v w : V),
        aLookup k (NMTree.absNM (runNM ops)) = some w →
        NMTree.nmInsert (runNM ops) k v = (runNM ops, false)) ∧
    (∀ (ops : List (MapOp K V)) (k : K),
        aLookup k (NMTree.absNM (runNM ops)) = none →
        NMTree.nmRemove (runNM ops) k = (runNM ops, false, none)) ∧
    (∀ (ops : List (MapOp K V)) (k : K) (v w : V),
        aLookup k (BT.absBT (runBT ops)) = some w →
        (BT.bInsert (runBT ops) k v).2 = false ∧
          BT.absBT (BT.bInsert (runBT ops) k v).1 =
            BT.absBT (runBT ops)) ∧
    (∀ (ops : List (MapOp K V)) (k : K),
        aLookup k (BT.absBT (runBT ops)) = none →
        (BT.bRemove (runBT ops) k).2.1 = false) := by
  refine ⟨?_, ?_, ?_, ?_, ?_, ?_, ?_, ?_, ?_, ?_⟩
  · intro ops k v w hw
    exact harrisInsert_present (runHL_abs ops).1 hw
  · intro ops k h
    exact harrisRemove_absent (runHL_abs ops).1 h
  · intro ops k v w hw
    exact hmInsert_present (runHM_abs ops).1 hw
  · intro ops k h
    exact hmRemove_absent (runHM_abs ops).1 h
  · intro ops k v w hw
    exact harrisInsert_present (runHHS_abs ops).1 hw
  · intro ops k h
    exact harrisRemove_absent (runHHS_abs ops).1 h
  · intro ops k v w hw
    have hnone := NMTree.nmInsertAux_present (v := v) (runNM_abs ops).1.2
      (by rw [hw]; rfl)
    rw [NMTree.nmInsert, hnone]
  · intro ops k h
    rcases (runNM_abs ops).1 with ⟨⟨sub, hshape, _⟩, hinv⟩
    have hint : NMTree.IsInternal (runNM ops) := by
      rw [hshape]
      trivial
    rw [NMTree.nmRemove, NMTree.nmRemoveAux_absent hinv hint h]
  · intro ops k v w hw
    rcases runBT_abs ops with ⟨⟨hs, ho⟩, _⟩
    rcases BT.doInsert_spec (k := k) (v := v) hs ho with ⟨habs, hret, _⟩
    constructor
    · rw [BT.bInsert, hret, hw]
      rfl
    · rw [BT.bInsert, habs, BT.aInsert_lookup_present hs hw]
  · intro ops k h
    rcases runBT_abs ops with ⟨⟨hs, ho⟩, _⟩
    rcases BT.doRemove_spec (k := k) hs ho with ⟨_, hret, _, _⟩
    rw [BT.bRemove, hret, h]
    rfl

/-- Witness for C2: a concrete re-insert of a present key and remove of an
absent key on the Harris list. -/
theorem claim_C2_witness :
    harrisInsert (runHL ([MapOp.insert 1 2] : List (MapOp Nat Nat))) 1 9 =
        (runHL ([MapOp.insert 1 2] : List (MapOp Nat Nat)), false) ∧
      harrisRemove (runHL ([MapOp.insert 1 2] : List (MapOp Nat Nat))) 3 =
        (runHL ([MapOp.insert 1 2] : List (MapOp Nat Nat)), false, none) :=
  ⟨claim_C2.1 [MapOp.insert 1 2] 1 9 2 (by decide),
    claim_C2.2.1 [MapOp.insert 1 2] 3 (by decide)⟩

/-- C3 counterexample: the literal claim — every reachable Bonsai tree is
weight-balanced at every internal node with `W = 2` — fails: after the five
sequential inserts of keys 0, 1, 4, 3, 2 the root has child subtree sizes 3
and 1, and `3 > 2 * max 1 1`. -/
theorem claim_C3_counterexample :
    ¬ BT.BalancedW (runBT ([MapOp.insert 0 0, MapOp.insert 1 1,
      MapOp.insert 4 4, MapOp.insert 3 3, MapOp.insert 2 2] :
        List (MapOp Nat Nat))) := by
  decide

/-- C3 (amended): `mk_balanced` rebalances exactly when the weight-balance
inequality `W·max(other,1)` is violated in the corresponding direction
(`needLeft`/`needRight` are precisely those violations), and when neither
direction is violated it builds the plain node, whose child sizes satisfy
both inequalities.  The rotated results themselves are not guaranteed to
satisfy the inequality, so the per-node invariant does not hold of every
reachable tree (see the counterexample). -/
theorem claim_C3 {K V : Type} [LinearOrder K] :
    (∀ ls rs : Nat, BT.needLeft ls rs ↔ BT.WEIGHT * max ls 1 < rs) ∧
    (∀ ls rs : Nat, BT.needRight ls rs ↔ BT.WEIGHT * max rs 1 < ls) ∧
    (∀ (k : K) (v : V) (sz : Nat) (l0 r0 l r : BT K V),
        ¬ BT.needLeft (BT.nodeSize l) (BT.nodeSize r) →
        ¬ BT.needRight (BT.nodeSize l) (BT.nodeSize r) →
        BT.mkBalanced (BT.node k v sz l0 r0) l r = BT.mkNode l r k v ∧
          BT.nodeSize l ≤ BT.WEIGHT * max (BT.nodeSize r) 1 ∧
          BT.nodeSize r ≤ BT.WEIGHT * max (BT.nodeSize l) 1) ∧
    (∀ (k : K) (v : V) (sz : Nat) (l0 r0 l r : BT K V),
        BT.needLeft (BT.nodeSize l) (BT.nodeSize r) →
        BT.mkBalanced (BT.node k v sz l0 r0) l r =
          BT.mkBalancedLeft l r k v) ∧
    (∀ (k : K) (v : V) (sz : Nat) (l0 r0 l r : BT K V),
        ¬ BT.needLeft (BT.nodeSize l) (BT.nodeSize r) →
        BT.needRight (BT.nodeSize l) (BT.nodeSize r) →
        BT.mkBalanced (BT.node k v sz l0 r0) l r =
          BT.mkBalancedRight l r k v) := by
  refine ⟨BT.needLeft_iff, BT.needRight_iff, ?_, ?_, ?_⟩
  · intro k v sz l0 r0 l r hnl hnr
    refine ⟨?_, ?_, ?_⟩
    · rw [BT.mkBalanced_eq, if_neg hnl, if_neg hnr]
    · rw [BT.needRight_iff] at hnr
      exact Nat.le_of_not_lt hnr
    · rw [BT.needLeft_iff] at hnl
      exact Nat.le_of_not_lt hnl
  · intro k v sz l0 r0 l r hl
    rw [BT.mkBalanced_eq, if_pos hl]
  · intro k v sz l0 r0 l r hnl hr
    rw [BT.mkBalanced_eq, if_neg hnl, if_pos hr]

/-- Witness for C3 (amended): a concrete left-rebalance trigger. -/
theorem claim_C3_witness :
    BT.mkBalanced (BT.node 5 5 3 (BT.nil : BT Nat Nat) BT.nil) BT.nil
        (BT.node 7 7 3 (BT.node 6 6 1 BT.nil BT.nil)
          (BT.node 8 8 1 BT.nil BT.nil)) =
      BT.mkBalancedLeft BT.nil
        (BT.node 7 7 3 (BT.node 6 6 1 BT.nil BT.nil)
          (BT.node 8 8 1 BT.nil BT.nil)) 5 5 :=
  (claim_C3 (K := Nat) (V := Nat)).2.2.2.1 5 5 3 BT.nil BT.nil BT.nil
    (BT.node 7 7 3 (BT.node 6 6 1 BT.nil BT.nil)
      (BT.node 8 8 1 BT.nil BT.nil)) (by decide)

/-- C5: `do_remove` at a matching node returns `null` when that subtree is
one single node (its stored size is 1, which under correct size accounting
means one node); otherwise it splices using the inorder successor pulled
from the nonempty child — `pull_rightmost` of the left child when it is
non-null, else `pull_leftmost` of the right child; the pulls return the
rebuilt child plus the pulled entry as a fresh leaf `mk_node(null, null,
key, value)` and preserve content and sizes — and rebuilds with
`mk_balanced`; at the map level `remove` returns true iff the key was
present, and on true the holder exposes the removed value. -/
theorem claim_C5 {K V : Type} [LinearOrder K] [DecidableEq V] :
    (∀ (k : K) (v : V) (l r : BT K V),
        BT.doRemove k (BT.node k v 1 l r) = (BT.nil, true, some v)) ∧
    (∀ (k : K) (v : V) (sz : Nat) (l r : BT K V),
        BT.SizeOk (BT.node k v sz l r) →
        (sz = 1 ↔ BT.numNodes (BT.node k v sz l r) = 1)) ∧
    (∀ (k : K) (v : V) (sz : Nat) (l r : BT K V), sz ≠ 1 → l ≠ BT.nil →
        BT.doRemove k (BT.node k v sz l r) =
          (BT.mkBalanced (BT.pullRightmost l).2 (BT.pullRightmost l).1 r,
            true, some v)) ∧
    (∀ (k : K) (v : V) (sz : Nat) (r : BT K V), sz ≠ 1 →
        BT.doRemove k (BT.node k v sz BT.nil r) =
          (BT.mkBalanced (BT.pullLeftmost r).2 BT.nil (BT.pullLeftmost r).1,
            true, some v)) ∧
    (∀ t : BT K V, BT.SizeOk t → t ≠ BT.nil → ∃ km vm,
        (BT.pullRightmost t).2 = BT.mkNode BT.nil BT.nil km vm ∧
        BT.absBT (BT.pullRightmost t).1 ++ [(km, vm)] = BT.absBT t ∧
        BT.SizeOk (BT.pullRightmost t).1) ∧
    (∀ t : BT K V, BT.SizeOk t → t ≠ BT.nil → ∃ km vm,
        (BT.pullLeftmost t).2 = BT.mkNode BT.nil BT.nil km vm ∧
        (km, vm) :: BT.absBT (BT.pullLeftmost t).1 = BT.absBT t ∧
        BT.SizeOk (BT.pullLeftmost t).1) ∧
    (∀ (ops : List (MapOp K V)) (k : K),
        ((BT.bRemove (runBT ops) k).2.1 = true ↔
          aLookup k (BT.absBT (runBT ops)) ≠ none) ∧
        (BT.bRemove (runBT ops) k).2.2 =
          aLookup k (BT.absBT (runBT ops))) := by
  have hcc : ∀ k : K, compare k k = Ordering.eq :=
    fun k => compare_eq_iff_eq.mpr rfl
  refine ⟨?_, ?_, ?_, ?_,
    fun t ho hne => BT.pullRightmost_spec ho hne,
    fun t ho hne => BT.pullLeftmost_spec ho hne, ?_⟩
  · intro k v l r
    rw [BT.doRemove, hcc k]
    simp
  · intro k v sz l r ho
    have h1 := ho.1
    have h2 := (BT.sizeOk_numNodes ho.2.1).symm
    have h3 := (BT.sizeOk_numNodes ho.2.2).symm
    rw [BT.numNodes]
    omega
  · intro k v sz l r hsz hl
    rw [BT.doRemove, hcc k]
    simp only []
    rw [if_neg hsz, if_pos (by rw [BT.isNil_false_iff.mpr hl]; rfl)]
  · intro k v sz r hsz
    rw [BT.doRemove, hcc k]
    simp only []
    rw [if_neg hsz, if_neg (by simp [BT.isNil])]
  · intro ops k
    rcases runBT_abs ops with ⟨⟨hs, ho⟩, _⟩
    rcases BT.doRemove_spec (k := k) hs ho with ⟨_, hret, hout, _⟩
    constructor
    · rw [BT.bRemove, hret]
      exact Option.isSome_iff_ne_none
    · rw [BT.bRemove, hout]

/-- Witness for C5: a concrete splice through the left child's rightmost
node. -/
theorem claim_C5_witness :
    BT.doRemove 5 (BT.node 5 9 3 (BT.node 2 2 1 (BT.nil : BT Nat Nat)
        BT.nil) (BT.node 7 7 1 BT.nil BT.nil)) =
      (BT.mkBalanced (BT.pullRightmost (BT.node 2 2 1 (BT.nil : BT Nat Nat)
          BT.nil)).2
        (BT.pullRightmost (BT.node 2 2 1 (BT.nil : BT Nat Nat) BT.nil)).1
        (BT.node 7 7 1 BT.nil BT.nil), true, some 9) :=
  claim_C5.2.2.1 5 9 3 (BT.node 2 2 1 BT.nil BT.nil)
    (BT.node 7 7 1 BT.nil BT.nil) (by decide) (by decide)

/-- C7: used sequentially, `insert` returns false exactly when `seek` ends
at a leaf whose key equals the inserted key; otherwise it builds a new
internal node whose children are the old leaf and the new leaf in key
order, whose key is the right child's key (the larger of the two leaf
keys, i.e. the minimum of its right subtree), installs it in place of the
old leaf by the parent-edge CAS, and returns true. -/
theorem claim_C7 {K V : Type} [LinearOrder K] [DecidableEq V] :
    (∀ (t : NMTree K V) (k : K) (v : V),
        ((NMTree.nmInsert t k v).2 = false ↔
          nmKeyCmpK (NMTree.seekLeaf k t).rootKey k = .eq)) ∧
    (∀ (t : NMTree K V) (k : K) (v : V),
        nmKeyCmpK (NMTree.seekLeaf k t).rootKey k ≠ .eq →
        NMTree.nmInsertAux k v t =
          some (NMTree.replaceLeaf k
            (NMTree.newInternal (NMTree.seekLeaf k t) k v) t) ∧
        (NMTree.nmInsert t k v).2 = true) ∧
    (∀ (lk : NMKey K) (lv : Option V) (k : K) (v : V),
        nmKeyCmpK lk k ≠ .eq →
        ∃ nk nl nr,
          NMTree.newInternal (NMTree.leaf lk lv) k v =
            NMTree.internal nk nl nr ∧
          nk = nr.rootKey ∧
          nmKeyCmp nl.rootKey nr.rootKey = .lt ∧
          ((nl = NMTree.leaf (NMKey.fin k) (some v) ∧
              nr = NMTree.leaf lk lv) ∨
            (nl = NMTree.leaf lk lv ∧
              nr = NMTree.leaf (NMKey.fin k) (some v)))) := by
  refine ⟨?_, ?_, ?_⟩
  · intro t k v
    rw [NMTree.nmInsert]
    rcases hx : NMTree.nmInsertAux k v t with _ | t2
    · exact iff_of_true rfl (NMTree.nmInsertAux_none_iff.mp hx)
    · refine iff_of_false (by simp) fun he => ?_
      rw [NMTree.nmInsertAux_none_iff.mpr he] at hx
      exact Option.noConfusion hx
  · intro t k v hne
    refine ⟨NMTree.nmInsertAux_replaceLeaf hne, ?_⟩
    rw [NMTree.nmInsert, NMTree.nmInsertAux_replaceLeaf hne]
  · intro lk lv k v hne
    rcases hc : nmKeyCmpK lk k with _ | _ | _
    · refine ⟨NMKey.fin k, NMTree.leaf lk lv,
        NMTree.leaf (NMKey.fin k) (some v), ?_, rfl, ?_, Or.inr ⟨rfl, rfl⟩⟩
      · rw [NMTree.newInternal]
        simp only [NMTree.rootKey]
        rw [if_neg (by simp [hc])]
      · cases lk with
        | fin a => exact hc
        | inf => exact Ordering.noConfusion hc
    · exact absurd hc hne
    · refine ⟨lk, NMTree.leaf (NMKey.fin k) (some v), NMTree.leaf lk lv,
        ?_, rfl, ?_, Or.inl ⟨rfl, rfl⟩⟩
      · rw [NMTree.newInternal]
        simp only [NMTree.rootKey]
        rw [if_pos hc]
      · cases lk with
        | fin a => exact compare_lt_iff_lt.mpr (compare_gt_iff_gt.mp hc)
        | inf => rfl

/-- Witness for C7: a fresh key inserted into the sentinel skeleton replaces
the middle leaf and reports success. -/
theorem claim_C7_witness :
    NMTree.nmInsertAux 5 7 (NMTree.nmNew : NMTree Nat Nat) =
        some (NMTree.replaceLeaf 5
          (NMTree.newInternal
            (NMTree.seekLeaf 5 (NMTree.nmNew : NMTree Nat Nat)) 5 7)
          NMTree.nmNew) ∧
      (NMTree.nmInsert (NMTree.nmNew : NMTree Nat Nat) 5 7).2 = true :=
  claim_C7.2.1 NMTree.nmNew 5 7 (by decide)

/-- C10: `Key::cmp` is the comparison of a total order — it is the image of
the linear order on `WithTop K` under the embedding `toW` (`Fin a ↦ a`,
`Inf ↦ ⊤`) — in which `Inf` is strictly greater than every finite key and
equal to `Inf`, and finite keys compare as in `K`; `Key::cmp(&k)` against a
finite key returns `Greater` on every sentinel, so `seek`/`seek_leaf` always
descend left at an `Inf`-keyed internal node, and on the initial skeleton
every search ends at the middle `Inf` leaf. -/
theorem claim_C10 {K V : Type} [LinearOrder K] :
    (∀ x y : NMKey K, nmKeyCmp x y = compare (NMTree.toW x) (NMTree.toW y)) ∧
    (∀ a b : K, nmKeyCmp (NMKey.fin a) (NMKey.fin b) = compare a b) ∧
    (∀ k : K, nmKeyCmp NMKey.inf (NMKey.fin k) = Ordering.gt ∧
      nmKeyCmp (NMKey.fin k) NMKey.inf = Ordering.lt) ∧
    nmKeyCmp (NMKey.inf : NMKey K) NMKey.inf = Ordering.eq ∧
    (∀ (kk : NMKey K) (k : K), nmKeyCmpK kk k = nmKeyCmp kk (NMKey.fin k)) ∧
    (∀ k : K, nmKeyCmpK (NMKey.inf : NMKey K) k = Ordering.gt) ∧
    (∀ (k : K) (l r : NMTree K V),
        NMTree.seekLeaf k (NMTree.internal NMKey.inf l r) =
          NMTree.seekLeaf k l) ∧
    (∀ k : K, NMTree.seekLeaf k (NMTree.nmNew : NMTree K V) =
        NMTree.leaf NMKey.inf none) := by
  refine ⟨?_, fun a b => rfl, fun k => ⟨rfl, rfl⟩, rfl,
    fun kk k => by cases kk <;> rfl, fun k => rfl,
    fun k l r => rfl, fun k => rfl⟩
  intro x y
  cases x with
  | fin a =>
    cases y with
    | fin b =>
      simp only [nmKeyCmp, NMTree.toW]
      rcases h : compare a b with _ | _ | _
      · symm
        rw [compare_lt_iff_lt]
        exact_mod_cast compare_lt_iff_lt.mp h
      · symm
        rw [compare_eq_iff_eq]
        exact_mod_cast compare_eq_iff_eq.mp h
      · symm
        rw [compare_gt_iff_gt]
        exact_mod_cast compare_gt_iff_gt.mp h
    | inf =>
      simp only [nmKeyCmp, NMTree.toW]
      symm
      rw [compare_lt_iff_lt]
      exact WithTop.coe_lt_top a
  | inf =>
    cases y with
    | fin b =>
      simp only [nmKeyCmp, NMTree.toW]
      symm
      rw [compare_gt_iff_gt]
      exact WithTop.coe_lt_top b
    | inf =>
      simp only [nmKeyCmp, NMTree.toW]
      symm
      rw [compare_eq_iff_eq]

end SmrBench
